import Mathlib

/-!
Verification development for the IntelliParse feed pipeline.

The definitions below are shallow embeddings of the Python sources:
src/intelliparse.py (feed normalization and the JSON extraction step of
call_claude_api), src/process_feed.py and src/process_feed_for_player.py
(keyword filtering, id sanitization and the player projection).  Python
dictionaries with optional keys become structures with Option fields,
exceptions become Option results, and text is modelled as List Char.
The Python json module (json.dumps with default settings and json.loads)
is modelled by an executable serializer and scanner over an inductive
value type with integer numbers; IEEE floats and lone UTF-16 surrogates
are outside the model.
-/

/-! ## Character list helpers modelling Python string primitives -/

/-- Python str.startswith: the first argument read as a pattern is a
leading segment of the second. -/
def startsWithL : List Char → List Char → Bool
  | [], _ => true
  | _ :: _, [] => false
  | p :: ps, c :: cs => p == c && startsWithL ps cs

/-- Python substring membership test, the in operator on strings. -/
def isSubstrL (pat : List Char) : List Char → Bool
  | [] => startsWithL pat []
  | c :: cs => startsWithL pat (c :: cs) || isSubstrL pat cs

/-- Python str.lower restricted to the basic latin range, as Char.toLower. -/
def lowerL (cs : List Char) : List Char := cs.map Char.toLower

/-! ## sanitize_id, from src/process_feed_for_player.py lines 29 to 32.
The Python code is re.sub applied to text.lower().replace(space, hyphen)
removing every character outside the class a to z, A to Z, 0 to 9 and
the hyphen. -/

/-- Characters kept by the regular expression class of sanitize_id. -/
def keepIdChar (c : Char) : Bool :=
  (97 ≤ c.toNat && c.toNat ≤ 122) || (65 ≤ c.toNat && c.toNat ≤ 90) ||
    (48 ≤ c.toNat && c.toNat ≤ 57) || c == '-'

/-- Model of sanitize_id: lower the text, turn spaces into hyphens, keep
only identifier characters. -/
def sanitize_id (text : String) : String :=
  String.mk (((text.data.map Char.toLower).map
    (fun c => if c == ' ' then '-' else c)).filter keepIdChar)

/-- The sanitization algorithm exactly as the specification words it:
lower-case, replace spaces with hyphens, then strip all characters
outside the class a to z, 0 to 9 and hyphen. -/
def specSanitize (text : String) : String :=
  String.mk (((text.data.map Char.toLower).map
    (fun c => if c == ' ' then '-' else c)).filter
      (fun c => (97 ≤ c.toNat && c.toNat ≤ 122) ||
        (48 ≤ c.toNat && c.toNat ≤ 57) || c == '-'))

/-! ## The normalized episode data model, from src/intelliparse.py -/

/-- One enclosure of a raw feed entry: feedparser exposes optional type
and href keys, read with dict get in the source. -/
structure REnclosure where
  type : Option String
  href : Option String

/-- One raw feedparser entry with the optional keys the source reads. -/
structure RawEntry where
  id : Option String
  guid : Option String
  title : Option String
  published : Option String
  summary : Option String
  description : Option String
  enclosures : Option (List REnclosure)
  itunes_duration : Option String

/-- A fetched feed: the declared feed title, if any, and its entries. -/
structure RawFeed where
  ftitle : Option String
  entries : List RawEntry

/-- One normalized episode record, the dictionary built in parse_feeds,
src/intelliparse.py lines 44 to 52. -/
structure Episode where
  id : String
  title : String
  date : String
  summary : String
  source_feed : String
  media_url : Option String
  duration : Option String

/-- The enclosure scan of parse_feeds, lines 56 to 59: walk the list and
on the first enclosure whose type starts with the audio prefix, assign
its href, which may itself be absent, and stop. -/
def firstAudioHref : List REnclosure → Option String
  | [] => none
  | e :: t =>
    if startsWithL ("audio/".data) ((e.type.getD "").data) then e.href
    else firstAudioHref t

/-- The media url of an entry, lines 50 and 55 to 59: None unless the
entry has a nonempty enclosure list, in which case the first audio
enclosure decides. -/
def mediaUrlOf : Option (List REnclosure) → Option String
  | none => none
  | some l => if 0 < l.length then firstAudioHref l else none

/-- Normalization of one raw entry, src/intelliparse.py lines 44 to 63.
Python evaluates every argument of dict.get eagerly, so the fallback id
expression reads entry.title even when an id is present; feedparser
raises AttributeError for a missing title, which the per feed handler
catches.  Hence an entry without a title yields no record at all.  The
hash of Python is run dependent and passed in as hashf; the
normalization timestamp is passed in as now. -/
def normalizeEntry (hashf : String → Int) (now : String)
    (feedTitle : Option String) (feedUrl : String) (e : RawEntry) :
    Option Episode :=
  match e.title with
  | none => none
  | some t =>
    some {
      id := e.id.getD (e.guid.getD ("ep-" ++ toString (hashf t)))
      title := e.title.getD "Unknown Title"
      date := e.published.getD now
      summary := e.summary.getD (e.description.getD "")
      source_feed := feedTitle.getD feedUrl
      media_url := mediaUrlOf e.enclosures
      duration := e.itunes_duration }

/-- The inner entry loop of parse_feeds with the running all_episodes
accumulator: a normalization failure aborts the remaining entries of
this feed but keeps what was already appended. -/
def entriesLoop (hashf : String → Int) (now : String)
    (feedTitle : Option String) (feedUrl : String) :
    List RawEntry → List Episode → List Episode
  | [], acc => acc
  | e :: es, acc =>
    match normalizeEntry hashf now feedTitle feedUrl e with
    | some ep => entriesLoop hashf now feedTitle feedUrl es (acc ++ [ep])
    | none => acc

/-- The outer url loop of parse_feeds, lines 39 to 68: a fetch failure
skips the feed, everything else extends the shared accumulator. -/
def parseFeedsLoop (hashf : String → Int) (now : String)
    (fetch : String → Option RawFeed) :
    List String → List Episode → List Episode
  | [], acc => acc
  | u :: us, acc =>
    match fetch u with
    | none => parseFeedsLoop hashf now fetch us acc
    | some f =>
       parseFeedsLoop hashf now fetch us
         (entriesLoop hashf now f.ftitle u f.entries acc)

/-- parse_feeds of src/intelliparse.py, with the feed source and the
run dependent inputs abstracted as functions. -/
def parseFeeds (hashf : String → Int) (now : String)
    (fetch : String → Option RawFeed) (urls : List String) : List Episode :=
  parseFeedsLoop hashf now fetch urls []

/-- The longest prefix of a list of entries that normalizes without
failure, in order; the characterization the amended claim C7 uses. -/
def normPrefix (hashf : String → Int) (now : String)
    (feedTitle : Option String) (feedUrl : String) :
    List RawEntry → List Episode
  | [] => []
  | e :: es =>
    match normalizeEntry hashf now feedTitle feedUrl e with
    | some ep => ep :: normPrefix hashf now feedTitle feedUrl es
    | none => []

/-! ## Keyword filtering, src/process_feed.py lines 64 to 77 and the
identical block of src/process_feed_for_player.py lines 64 to 77. -/

/-- The searchable text of an episode: an f-string joining title and
summary with one space, then lowered. -/
def searchText (e : Episode) : List Char :=
  lowerL (e.title.data ++ ' ' :: e.summary.data)

/-- Does at least one configured keyword, lowered, occur in the text. -/
def keywordHit (kws : List String) (e : Episode) : Bool :=
  kws.any (fun k => isSubstrL (lowerL k.data) (searchText e))

/-- The filtering loop body: filtered_episodes accumulates the episodes
with a keyword hit, in order. -/
def filterLoop (kws : List String) : List Episode → List Episode
  | [] => []
  | e :: es =>
    if keywordHit kws e then e :: filterLoop kws es else filterLoop kws es

/-- The filter step of process_feed: the loop runs only when the config
carries a nonempty filter_keywords list, otherwise the episode list is
left untouched. -/
def filterStep (filter_keywords : Option (List String))
    (eps : List Episode) : List Episode :=
  match filter_keywords with
  | none => eps
  | some [] => eps
  | some (k :: ks) => filterLoop (k :: ks) eps

/-- The keeping condition exactly as claim C6 words it: the lowered
keyword occurs in the lowered concatenation of title and summary, with
no separator between them. -/
def specConcatHit (k : String) (e : Episode) : Bool :=
  isSubstrL (lowerL k.data) (lowerL (e.title.data ++ e.summary.data))

/-! ## The player projection, src/process_feed_for_player.py lines 88
to 133.  The episode dictionaries may carry keys the normalizer never
produces; the projection code probes them defensively, so the model
keeps them optional. -/

/-- An enclosure as probed by the player projection: the href key is
tested for presence, the declared type is never consulted. -/
structure PEnclosure where
  type : Option String
  href : Option String

/-- The optional image object with its optional href. -/
structure PImage where
  href : Option String

/-- An episode dictionary as consumed by the player projection. -/
structure PEpisode where
  title : Option String
  summary : Option String
  media_url : Option String
  enclosures : Option (List PEnclosure)
  image : Option PImage
  image_url : Option String

/-- A track of the player document, lines 116 to 127. -/
structure Track where
  id : String
  title : String
  audioUrl : String
  description : String
  albumArt : Option String

/-- The enclosure fallback scan, lines 111 to 114: take the href of the
first enclosure that has an href key, whatever its declared type, and
stop there; an absent href key moves on to the next enclosure. -/
def encLoopHref : List PEnclosure → String
  | [] => ""
  | enc :: t =>
    match enc.href with
    | some u => u
    | none => encLoopHref t

/-- Resolution of the audio url, lines 105 to 114: a truthy media_url
wins, else a truthy enclosure list is scanned, else the empty string. -/
def resolveAudioUrl (e : PEpisode) : String :=
  if e.media_url.getD "" ≠ "" then e.media_url.getD ""
  else
    match e.enclosures with
    | some l => if 0 < l.length then encLoopHref l else ""
    | none => ""

/-- The albumArt fallback chain, lines 124 to 127: an image object with
an href key wins, else a truthy image_url, else no album art. -/
def albumArtOf (e : PEpisode) : Option String :=
  match e.image with
  | some img =>
    match img.href with
    | some u => some u
    | none => if e.image_url.getD "" ≠ "" then e.image_url else none
  | none => if e.image_url.getD "" ≠ "" then e.image_url else none

/-- The track dictionary built for one episode, lines 102 to 127. -/
def mkTrack (e : PEpisode) : Track :=
  { id := sanitize_id (e.title.getD "unknown-track")
    title := e.title.getD "Untitled Track"
    audioUrl := resolveAudioUrl e
    description := e.summary.getD ""
    albumArt := albumArtOf e }

/-- The track emission loop, lines 101 to 133: a track joins the result
only when its audioUrl is truthy, otherwise the episode is reported and
dropped. -/
def playerTracks : List PEpisode → List Track
  | [] => []
  | e :: es =>
    if (mkTrack e).audioUrl ≠ "" then mkTrack e :: playerTracks es
    else playerTracks es

/-! ## Concrete inputs used by the theorems below -/

/-- A run stand-in for the Python hash builtin, which is salted per run. -/
def demoHash : String → Int := fun _ => 0

/-- Scenario episode with title AI Talk from claim C6. -/
def epAITalk : Episode :=
  ⟨"e1", "AI Talk", "d1", "about machine learning", "s", none, none⟩

/-- Scenario episode with title Cooking from claim C6. -/
def epCooking : Episode :=
  ⟨"e2", "Cooking", "d2", "pasta recipes", "s", none, none⟩

/-- Episode whose title ends where the summary begins, exercising the
word boundary between title and summary. -/
def epBoundary : Episode := ⟨"e3", "AI", "d3", "Talk", "s", none, none⟩

/-- An entry that normalizes fine. -/
def entGood1 : RawEntry :=
  ⟨some "g1", none, some "Good One", some "2024-01-01", some "sum1",
   none, none, none⟩

/-- An entry with no title key: normalization raises in the source. -/
def entBad : RawEntry :=
  ⟨some "b", none, none, none, some "no title here", none, none, none⟩

/-- A second entry that normalizes fine. -/
def entGood2 : RawEntry :=
  ⟨some "g2", none, some "Good Two", some "2024-01-02", some "sum2",
   none, none, none⟩

/-- A feed whose second entry fails to normalize. -/
def feedA : RawFeed := ⟨some "Feed A", [entGood1, entBad]⟩

/-- A feed that normalizes completely. -/
def feedB : RawFeed := ⟨some "Feed B", [entGood2]⟩

/-- A two feed source: urlA yields feedA, urlB yields feedB. -/
def demoFetch : String → Option RawFeed := fun u =>
  if u = "urlA" then some feedA else if u = "urlB" then some feedB else none

/-- An entry with an id and a summary but no title key. -/
def noTitleEntry : RawEntry :=
  ⟨some "ep9", some "guid9", none, some "2024-02-02", some "a summary",
   none, none, none⟩

/-- Player episode with a direct media url. -/
def pepWithMedia : PEpisode :=
  ⟨some "One", some "s1", some "http://x/1.mp3", none, none, none⟩

/-- Player episode with no audio source at all. -/
def pepNoSource : PEpisode := ⟨some "Two", some "s2", none, none, none, none⟩

/-- Player episode whose audio comes from an enclosure. -/
def pepWithEnc : PEpisode :=
  ⟨some "Three", some "s3", none,
   some [⟨some "audio/mpeg", some "http://x/3.mp3"⟩], none, none⟩

/-- The three episode demo feed of claim C8. -/
def demoPlayerFeed : List PEpisode := [pepWithMedia, pepNoSource, pepWithEnc]

/-- Player episode whose only enclosure is a video with an href. -/
def pepVideoOnly : PEpisode :=
  ⟨some "Clip", some "sv", none,
   some [⟨some "video/mp4", some "http://x/clip.mp4"⟩], none, none⟩

/-! ## The JSON value model and the Python json module

The extraction step of call_claude_api, src/intelliparse.py lines 166
to 176, slices the reply between the first open brace and the last
close brace and hands the slice to json.loads.  The json module is
modelled here executably: an inductive value type, a serializer
matching json.dumps with its default settings (separators comma space
and colon space, ensure_ascii escaping with UTF-16 surrogate pairs),
and a scanner matching json.loads in strict mode.  Numbers are
restricted to integers: floats are outside the model. -/

/-- A JSON value as the Python json module reads and writes it, with
numbers restricted to integers. -/
inductive Json where
  | null : Json
  | bool : Bool → Json
  | num : Int → Json
  | str : String → Json
  | arr : List Json → Json
  | obj : List (String × Json) → Json

/-- Hexadecimal digit characters, lower case, as the percent zero four
x format of the json module emits them. -/
def hexDigit (n : Nat) : Char :=
  if n < 10 then Char.ofNat (48 + n) else Char.ofNat (87 + n)

/-- The four digit hexadecimal payload of one escaped code unit. -/
def hex4 (n : Nat) : List Char :=
  [hexDigit (n / 4096 % 16), hexDigit (n / 256 % 16),
   hexDigit (n / 16 % 16), hexDigit (n % 16)]

/-- One character as json.dumps with ensure_ascii renders it: the seven
short escapes, printable ascii verbatim, and everything else as one or,
beyond the basic plane, two backslash u escapes carrying the UTF-16
surrogate halves. -/
def escChar (c : Char) : List Char :=
  if c = '"' then ['\\', '"']
  else if c = '\\' then ['\\', '\\']
  else if c = '\x08' then ['\\', 'b']
  else if c = '\x0c' then ['\\', 'f']
  else if c = '\n' then ['\\', 'n']
  else if c = '\r' then ['\\', 'r']
  else if c = '\t' then ['\\', 't']
  else if 32 ≤ c.toNat ∧ c.toNat ≤ 126 then [c]
  else if c.toNat < 65536 then '\\' :: 'u' :: hex4 c.toNat
  else
    ('\\' :: 'u' :: hex4 (55296 + (c.toNat - 65536) / 1024)) ++
    ('\\' :: 'u' :: hex4 (56320 + (c.toNat - 65536) % 1024))

/-- A whole string body, escaped character by character. -/
def escStr : List Char → List Char
  | [] => []
  | c :: cs => escChar c ++ escStr cs

/-- Decimal digit characters with explicit fuel: the fuel only bounds
the recursion, and any fuel at least the rendered number is enough. -/
def natCharsAux : Nat → Nat → List Char
  | 0, n => [Char.ofNat (48 + n % 10)]
  | fuel + 1, n =>
    if n < 10 then [Char.ofNat (48 + n)]
    else natCharsAux fuel (n / 10) ++ [Char.ofNat (48 + n % 10)]

/-- Decimal digit characters of a natural number, as Python str
renders it. -/
def natChars (n : Nat) : List Char := natCharsAux n n

/-- Python str of an integer: an optional minus sign, then digits. -/
def intChars (i : Int) : List Char :=
  if i < 0 then '-' :: natChars i.natAbs else natChars i.natAbs

mutual
/-- json.dumps with the default separators, one rendered value. -/
def dumpsVal : Json → List Char
  | Json.null => ['n', 'u', 'l', 'l']
  | Json.bool true => ['t', 'r', 'u', 'e']
  | Json.bool false => ['f', 'a', 'l', 's', 'e']
  | Json.num i => intChars i
  | Json.str s => '"' :: (escStr s.data ++ ['"'])
  | Json.arr xs => '[' :: (dumpsItems xs ++ [']'])
  | Json.obj ps => '{' :: (dumpsPairs ps ++ ['}'])
/-- Array items joined by comma space. -/
def dumpsItems : List Json → List Char
  | [] => []
  | [x] => dumpsVal x
  | x :: y :: xs => dumpsVal x ++ ',' :: ' ' :: dumpsItems (y :: xs)
/-- Object members, each a quoted escaped key, colon space and value,
joined by comma space. -/
def dumpsPairs : List (String × Json) → List Char
  | [] => []
  | [(k, v)] => '"' :: (escStr k.data ++ '"' :: ':' :: ' ' :: dumpsVal v)
  | (k, v) :: p :: ps =>
    ('"' :: (escStr k.data ++ '"' :: ':' :: ' ' :: dumpsVal v)) ++
      ',' :: ' ' :: dumpsPairs (p :: ps)
end

/-- No key occurs twice, as the keys of a Python dict never do. -/
def keysUnique : List (String × Json) → Bool
  | [] => true
  | (k, _) :: ps => !(ps.any (fun p => p.1 == k)) && keysUnique ps

mutual
/-- Well formed values: every object level has pairwise distinct keys.
Values serialized from Python dictionaries always satisfy this. -/
def jsonWF : Json → Bool
  | Json.null => true
  | Json.bool _ => true
  | Json.num _ => true
  | Json.str _ => true
  | Json.arr xs => listWF xs
  | Json.obj ps => keysUnique ps && pairsWF ps
/-- Well formedness of every array element. -/
def listWF : List Json → Bool
  | [] => true
  | x :: xs => jsonWF x && listWF xs
/-- Well formedness of every member value. -/
def pairsWF : List (String × Json) → Bool
  | [] => true
  | (_, v) :: ps => jsonWF v && pairsWF ps
end

/-! ## The scanner of json.loads -/

/-- The whitespace characters the json scanner skips. -/
def skipPyWs : List Char → List Char
  | c :: cs =>
    if c = ' ' ∨ c = '\t' ∨ c = '\n' ∨ c = '\r' then skipPyWs cs
    else c :: cs
  | [] => []

/-- The numeric value of one hexadecimal digit, either case. -/
def hexDigitVal (c : Char) : Option Nat :=
  if 48 ≤ c.toNat ∧ c.toNat ≤ 57 then some (c.toNat - 48)
  else if 97 ≤ c.toNat ∧ c.toNat ≤ 102 then some (c.toNat - 87)
  else if 65 ≤ c.toNat ∧ c.toNat ≤ 70 then some (c.toNat - 55)
  else none

/-- The value of a four digit hexadecimal escape payload. -/
def hexQuad (a b c d : Char) : Option Nat :=
  match hexDigitVal a, hexDigitVal b, hexDigitVal c, hexDigitVal d with
  | some x, some y, some z, some w =>
    some (((x * 16 + y) * 16 + z) * 16 + w)
  | _, _, _, _ => none

/-- The single letter escapes json.loads accepts. -/
def escCode (e : Char) : Option Char :=
  if e = '"' then some '"'
  else if e = '\\' then some '\\'
  else if e = '/' then some '/'
  else if e = 'b' then some '\x08'
  else if e = 'f' then some '\x0c'
  else if e = 'n' then some '\n'
  else if e = 'r' then some '\r'
  else if e = 't' then some '\t'
  else none

/-- The string scanner of json.loads in strict mode, entered after the
opening quote: raw control characters are rejected, escapes decoded,
and a high surrogate escape must be completed by a low one, since Lean
characters cannot hold lone surrogate halves (a model restriction,
Python itself keeps the lone half). -/
def readStrF : Nat → List Char → Option (List Char × List Char)
  | 0, _ => none
  | _ + 1, [] => none
  | fuel + 1, c :: r =>
    if c = '"' then some ([], r)
    else if c = '\\' then
      match r with
      | [] => none
      | e :: r2 =>
        if e = 'u' then
          match r2 with
          | a :: b :: c2 :: d :: r3 =>
            (match hexQuad a b c2 d with
             | none => none
             | some n =>
               if 55296 ≤ n ∧ n < 56320 then
                 match r3 with
                 | e1 :: e2 :: a2 :: b2 :: c3 :: d2 :: r4 =>
                   if e1 = '\\' ∧ e2 = 'u' then
                     match hexQuad a2 b2 c3 d2 with
                     | none => none
                     | some m =>
                       if 56320 ≤ m ∧ m < 57344 then
                         match readStrF fuel r4 with
                         | some (cs, rest) =>
                           some (Char.ofNat (65536 + (n - 55296) * 1024
                             + (m - 56320)) :: cs, rest)
                         | none => none
                       else none
                   else none
                 | _ => none
               else if 56320 ≤ n ∧ n < 57344 then none
               else
                 match readStrF fuel r3 with
                 | some (cs, rest) => some (Char.ofNat n :: cs, rest)
                 | none => none)
          | _ => none
        else
          match escCode e with
          | none => none
          | some ch =>
            match readStrF fuel r2 with
            | some (cs, rest) => some (ch :: cs, rest)
            | none => none
    else if c.toNat < 32 then none
    else
      match readStrF fuel r with
      | some (cs, rest) => some (c :: cs, rest)
      | none => none

/-- The string scanner entry point: the fuel is sized by the input and
cannot run out, since every step consumes at least one character. -/
def readStr (cs : List Char) : Option (List Char × List Char) :=
  readStrF cs.length cs

/-- Is the character a decimal digit. -/
def isDigitL (c : Char) : Bool := 48 ≤ c.toNat && c.toNat ≤ 57

/-- The value of a run of decimal digits. -/
def digitsVal (ds : List Char) : Nat :=
  ds.foldl (fun a c => a * 10 + (c.toNat - 48)) 0

/-- Would the number regular expression of the json module continue
with a fraction or an exponent here.  Such a match produces a float,
which is outside this model. -/
def floatCont : List Char → Bool
  | [] => false
  | c :: r =>
    if c = '.' then
      match r with
      | d :: _ => isDigitL d
      | [] => false
    else if c = 'e' ∨ c = 'E' then
      match r with
      | s1 :: rr =>
        if s1 = '+' ∨ s1 = '-' then
          match rr with
          | d :: _ => isDigitL d
          | [] => false
        else isDigitL s1
      | [] => false
    else false

/-- The integer part of a number: a single zero, or a nonzero leading
digit with the following digit run, the regular expression group
zero-or-nonzero-then-digits of the json module. -/
def readIntPart : List Char → Option (Nat × List Char)
  | [] => none
  | c :: r =>
    if c = '0' then some (0, r)
    else if isDigitL c then
      some (digitsVal (c :: r.takeWhile isDigitL), r.dropWhile isDigitL)
    else none

/-- The number scanner: optional minus sign and integer part, failing
where the json module would go on to read a float. -/
def readNum (cs : List Char) : Option (Int × List Char) :=
  match cs with
  | [] => none
  | c :: r =>
    if c = '-' then
      match readIntPart r with
      | some (n, rest) =>
        if floatCont rest then none else some (-(n : Int), rest)
      | none => none
    else
      match readIntPart (c :: r) with
      | some (n, rest) =>
        if floatCont rest then none else some ((n : Int), rest)
      | none => none

/-- Python dict insertion: an existing key keeps its position and takes
the new value, a new key is appended. -/
def dictInsert (ps : List (String × Json)) (k : String) (v : Json) :
    List (String × Json) :=
  if ps.any (fun p => p.1 == k) then
    ps.map (fun p => if p.1 == k then (p.1, v) else p)
  else ps ++ [(k, v)]

/-- The dictionary built from the scanned member list, in order. -/
def buildObj (ps : List (String × Json)) : List (String × Json) :=
  ps.foldl (fun acc p => dictInsert acc p.1 p.2) []

mutual
/-- One json value scanned from the input after optional whitespace.
The fuel only bounds the recursion and is sized by the caller so that
it never runs out before the scanner decides. -/
def scanValue : Nat → List Char → Option (Json × List Char)
  | 0, _ => none
  | fuel + 1, cs =>
    match skipPyWs cs with
    | [] => none
    | c :: r =>
      if c = 'n' then
        match r with
        | x1 :: x2 :: x3 :: r2 =>
          if x1 = 'u' ∧ x2 = 'l' ∧ x3 = 'l' then some (Json.null, r2)
          else none
        | _ => none
      else if c = 't' then
        match r with
        | x1 :: x2 :: x3 :: r2 =>
          if x1 = 'r' ∧ x2 = 'u' ∧ x3 = 'e' then some (Json.bool true, r2)
          else none
        | _ => none
      else if c = 'f' then
        match r with
        | x1 :: x2 :: x3 :: x4 :: r2 =>
          if x1 = 'a' ∧ x2 = 'l' ∧ x3 = 's' ∧ x4 = 'e' then
            some (Json.bool false, r2)
          else none
        | _ => none
      else if c = '"' then
        match readStr r with
        | some (cs2, rest) => some (Json.str (String.mk cs2), rest)
        | none => none
      else if c = '[' then
        match skipPyWs r with
        | [] => none
        | c2 :: r2 =>
          if c2 = ']' then some (Json.arr [], r2)
          else
            match scanItems fuel (c2 :: r2) with
            | some (vs, rest) => some (Json.arr vs, rest)
            | none => none
      else if c = '\x7b' then
        match skipPyWs r with
        | [] => none
        | c2 :: r2 =>
          if c2 = '\x7d' then some (Json.obj [], r2)
          else
            match scanPairs fuel (c2 :: r2) with
            | some (ps, rest) => some (Json.obj (buildObj ps), rest)
            | none => none
      else if c = '-' ∨ isDigitL c then
        match readNum (c :: r) with
        | some (i, rest) => some (Json.num i, rest)
        | none => none
      else none
/-- One or more comma separated array items, up to the closing
bracket. -/
def scanItems : Nat → List Char → Option (List Json × List Char)
  | 0, _ => none
  | fuel + 1, cs =>
    match scanValue fuel cs with
    | none => none
    | some (v, r) =>
      match skipPyWs r with
      | c :: r2 =>
        if c = ',' then
          match scanItems fuel r2 with
          | some (vs, rest) => some (v :: vs, rest)
          | none => none
        else if c = ']' then some ([v], r2)
        else none
      | [] => none
/-- One or more comma separated members, up to the closing brace. -/
def scanPairs : Nat → List Char → Option (List (String × Json) × List Char)
  | 0, _ => none
  | fuel + 1, cs =>
    match skipPyWs cs with
    | c :: r =>
      if c = '"' then
        match readStr r with
        | none => none
        | some (kcs, r1) =>
          match skipPyWs r1 with
          | c2 :: r2 =>
            if c2 = ':' then
              match scanValue fuel r2 with
              | none => none
              | some (v, r3) =>
                match skipPyWs r3 with
                | c3 :: r4 =>
                  if c3 = ',' then
                    match scanPairs fuel r4 with
                    | some (ps, rest) =>
                      some ((String.mk kcs, v) :: ps, rest)
                    | none => none
                  else if c3 = '\x7d' then some ([(String.mk kcs, v)], r4)
                  else none
                | [] => none
            else none
          | [] => none
      else none
    | [] => none
end

/-- json.loads: scan one value, then only whitespace may remain.  The
fuel is sized from the input length so that it cannot run out on any
input the scanner could accept. -/
def loadsChars (cs : List Char) : Option Json :=
  match scanValue (2 * cs.length + 4) cs with
  | some (v, r) => if skipPyWs r = [] then some v else none
  | none => none

/-! ## The extraction step of call_claude_api -/

/-- Index of the first occurrence of a character, if any. -/
def firstIdx (cs : List Char) (c : Char) : Option Nat :=
  match cs with
  | [] => none
  | x :: xs => if x = c then some 0 else (firstIdx xs c).map (· + 1)

/-- Index of the last occurrence of a character, if any. -/
def lastIdx (cs : List Char) (c : Char) : Option Nat :=
  match cs with
  | [] => none
  | x :: xs =>
    match lastIdx xs c with
    | some i => some (i + 1)
    | none => if x = c then some 0 else none

/-- Python str.find: the first index, or minus one. -/
def pyFind (cs : List Char) (c : Char) : Int :=
  match firstIdx cs c with
  | some i => (i : Int)
  | none => -1

/-- Python str.rfind: the last index, or minus one. -/
def pyRfind (cs : List Char) (c : Char) : Int :=
  match lastIdx cs c with
  | some i => (i : Int)
  | none => -1

/-- A Python slice bound: a negative value counts from the end, then
the result is clamped into the string. -/
def pyBound (n : Nat) (i : Int) : Nat :=
  let j := if i < 0 then i + n else i
  if j < 0 then 0 else min j.toNat n

/-- Python text slicing with unit step. -/
def pySlice (cs : List Char) (a b : Int) : List Char :=
  (cs.take (pyBound cs.length b)).drop (pyBound cs.length a)

/-- The JSON extraction step of call_claude_api, src/intelliparse.py
lines 166 to 176: find of the open brace, rfind of the close brace,
the slice between them, and loads; any failure raises the malformed
response error, modelled as none. -/
def extractJson (cs : List Char) : Option Json :=
  loadsChars (pySlice cs (pyFind cs '{') (pyRfind cs '}' + 1))

/-- The substring the claims speak about: from the first open brace
through the last close brace inclusive, empty when either brace is
missing or in the wrong order. -/
def specSub (cs : List Char) : List Char :=
  match firstIdx cs '{', lastIdx cs '}' with
  | some i, some j => (cs.take (j + 1)).drop i
  | _, _ => []

/-- Key membership at the top level of a parsed value. -/
def hasKey (v : Json) (k : String) : Bool :=
  match v with
  | Json.obj ps => ps.any (fun p => p.1 == k)
  | _ => false

/-- Does the input begin with a digit. -/
def digitStart : List Char → Bool
  | [] => false
  | c :: _ => isDigitL c

/-- Boundaries that can follow a complete dumped value: end of input or
one of the three separators of the json syntax. -/
def sepOK : List Char → Bool
  | [] => true
  | c :: _ => c == ',' || c == ']' || c == '\x7d'

/-! ## Claim C4: sanitize_id on the JMcPheron feed name -/

/-- Packing a valid code point and reading it back is the identity. -/
theorem toNat_ofNat_of_valid {n : Nat} (h : n.isValidChar) :
    (Char.ofNat n).toNat = n := by
  simp [Char.ofNat, dif_pos h, Char.ofNatAux, Char.toNat, UInt32.toNat]

/-- After lowering and space replacement no character sits in the upper
case latin range, so the two filter classes agree. -/
theorem mapped_char_not_upper (c : Char) :
    ¬ (65 ≤ (if Char.toLower c == ' ' then '-'
             else Char.toLower c).toNat ∧
       (if Char.toLower c == ' ' then '-'
        else Char.toLower c).toNat ≤ 90) := by
  by_cases hsp : Char.toLower c == ' '
  · simp only [hsp, if_pos]
    decide
  · simp only [hsp, if_neg, Bool.false_eq_true, not_false_iff]
    unfold Char.toLower
    by_cases hup : Char.toNat c ≥ 65 ∧ Char.toNat c ≤ 90
    · rw [if_pos hup]
      rw [toNat_ofNat_of_valid (Or.inl (by omega))]
      intro h
      omega
    · rw [if_neg hup]
      exact hup

/-- The two keep classes coincide away from the upper case range. -/
theorem keepIdChar_eq_lower_class (x : Char)
    (h : ¬ (65 ≤ x.toNat ∧ x.toNat ≤ 90)) :
    keepIdChar x = ((97 ≤ x.toNat && x.toNat ≤ 122) ||
      (48 ≤ x.toNat && x.toNat ≤ 57) || x == '-') := by
  unfold keepIdChar
  by_cases h1 : 65 ≤ x.toNat
  · have h2 : ¬ x.toNat ≤ 90 := fun h2 => h ⟨h1, h2⟩
    simp [h1, h2]
  · simp [h1]

/-- Claim C4 counterexample: the claim names jmcpheronfeed as the
sanitized identifier, but sanitize_id does not produce that string. -/
theorem c4_counterexample : sanitize_id "JMcPheron Feed!" ≠ "jmcpheronfeed" := by
  decide

/-- Claim C4 amended: sanitize_id carries out exactly the algorithm the
claim states, lower-case, spaces to hyphens, strip outside the class of
lower letters, digits and hyphen, and on JMcPheron Feed! that algorithm
yields jmcpheron-feed, with the hyphen kept, not jmcpheronfeed. -/
theorem c4_amended :
    (∀ t : String, sanitize_id t = specSanitize t) ∧
    sanitize_id "JMcPheron Feed!" = "jmcpheron-feed" := by
  constructor
  · intro t
    unfold sanitize_id specSanitize
    congr 1
    apply List.filter_congr
    intro x hx
    rw [List.mem_map] at hx
    obtain ⟨y, hy, rfl⟩ := hx
    rw [List.mem_map] at hy
    obtain ⟨c, _, rfl⟩ := hy
    exact keepIdChar_eq_lower_class _ (mapped_char_not_upper c)
  · decide

/-! ## Claim C5: first audio enclosure decides the media url -/

/-- The enclosure scan is the first match of the audio predicate, with
its possibly absent href passed through. -/
theorem firstAudioHref_eq_find (l : List REnclosure) :
    firstAudioHref l =
      (l.find? (fun e => startsWithL ("audio/".data)
        ((e.type.getD "").data))).bind (fun e => e.href) := by
  induction l with
  | nil => rfl
  | cons e t ih =>
    by_cases hp : startsWithL ("audio/".data) ((e.type.getD "").data)
    · simp [firstAudioHref, List.find?_cons, hp]
    · simp [firstAudioHref, List.find?_cons, hp, ih]

/-- Claim C5: for every enclosure list the media url is the href of the
first enclosure whose declared type starts with the audio prefix, null
when none matches, and the mixed video then audio list yields the href
of the audio enclosure. -/
theorem c5_media_url_first_audio :
    (∀ encs : Option (List REnclosure),
      mediaUrlOf encs =
        ((encs.getD []).find? (fun e => startsWithL ("audio/".data)
          ((e.type.getD "").data))).bind (fun e => e.href)) ∧
    mediaUrlOf (some [⟨some "video/mp4", some "http://x/v.mp4"⟩,
        ⟨some "audio/mpeg", some "http://x/a.mp3"⟩]) =
      some "http://x/a.mp3" := by
  constructor
  · intro encs
    match encs with
    | none => rfl
    | some [] => rfl
    | some (e :: t) =>
      rw [mediaUrlOf, if_pos (by simp), firstAudioHref_eq_find]
      rfl
  · rfl

/-! ## Claim C6: keyword filtering -/

/-- Claim C6 counterexample: reading concatenation literally, with no
separator, the keyword italk should keep the episode titled AI with
summary Talk, but the code joins title and summary with a space and the
filter drops it. -/
theorem c6_counterexample :
    specConcatHit "italk" epBoundary = true ∧
    filterStep (some ["italk"]) [epBoundary] = [] := by
  exact ⟨by decide, rfl⟩

/-- Claim C6 amended: with a nonempty keyword list the filter keeps an
episode exactly when some keyword, lowered, occurs in the lowered join
of title and summary with a single space between them; an absent or
empty keyword list leaves the episodes untouched; and the two episode
scenario keeps only the AI Talk episode. -/
theorem c6_amended (kws : List String) (eps : List Episode) (h : kws ≠ []) :
    filterStep (some kws) eps = eps.filter (keywordHit kws) ∧
    filterStep none eps = eps ∧
    filterStep (some []) eps = eps ∧
    filterStep (some ["ai", "machine learning"]) [epAITalk, epCooking] =
      [epAITalk] := by
  refine ⟨?_, rfl, rfl, rfl⟩
  match kws, h with
  | k :: ks, _ =>
    show filterLoop (k :: ks) eps = eps.filter (keywordHit (k :: ks))
    induction eps with
    | nil => rfl
    | cons e es ih =>
      by_cases hh : keywordHit (k :: ks) e
      · rw [filterLoop, if_pos hh, List.filter_cons_of_pos hh, ih]
      · rw [filterLoop, if_neg (by simpa using hh),
          List.filter_cons_of_neg (by simpa using hh), ih]

/-- Witness for claim C6: the amended statement applied to the two
episode scenario with its nonempty keyword list. -/
theorem c6_amended_witness :
    filterStep (some ["ai", "machine learning"]) [epAITalk, epCooking] =
      [epAITalk, epCooking].filter (keywordHit ["ai", "machine learning"]) :=
  (c6_amended ["ai", "machine learning"] [epAITalk, epCooking]
    (by decide)).1

/-! ## Claim C7: per feed isolation in parse_feeds -/

/-- The entry loop only ever appends: it adds exactly the episodes of
the longest normalizable prefix of the entry list. -/
theorem entriesLoop_eq_append (hashf : String → Int) (now : String)
    (ft : Option String) (url : String) (es : List RawEntry) :
    ∀ acc, entriesLoop hashf now ft url es acc =
      acc ++ normPrefix hashf now ft url es := by
  induction es with
  | nil => intro acc; simp [entriesLoop, normPrefix]
  | cons e t ih =>
    intro acc
    cases h : normalizeEntry hashf now ft url e with
    | none => simp [entriesLoop, normPrefix, h]
    | some ep => simp [entriesLoop, normPrefix, h, ih]

/-- The url loop only ever appends the per feed contributions. -/
theorem parseFeedsLoop_eq_append (hashf : String → Int) (now : String)
    (fetch : String → Option RawFeed) (urls : List String) :
    ∀ acc, parseFeedsLoop hashf now fetch urls acc =
      acc ++ urls.foldr (fun u rest =>
        (match fetch u with
         | none => []
         | some f => normPrefix hashf now f.ftitle u f.entries) ++ rest) [] := by
  induction urls with
  | nil => intro acc; simp [parseFeedsLoop]
  | cons u us ih =>
    intro acc
    cases h : fetch u with
    | none => simp [parseFeedsLoop, h, ih]
    | some f => simp [parseFeedsLoop, h, ih, entriesLoop_eq_append]

/-- Claim C7 counterexample: the first url yields a feed whose second
entry fails to normalize, yet the first episode of that very feed is
still returned ahead of the healthy feed, so the entries of a feed that
fails during normalization are not excluded. -/
theorem c7_counterexample :
    normalizeEntry demoHash "now" (some "Feed A") "urlA" entBad = none ∧
    (parseFeeds demoHash "now" demoFetch ["urlA", "urlB"]).map Episode.title
      = ["Good One", "Good Two"] := by
  exact ⟨rfl, rfl⟩

/-- Claim C7 amended: a fetch failure excludes the whole feed, while a
normalization failure inside a feed keeps the already normalized prefix
of that feed and drops only the rest; the result is the concatenation,
in input url order, of each fetched feed contribution with entries in
source order. -/
theorem c7_amended (hashf : String → Int) (now : String)
    (fetch : String → Option RawFeed) (urls : List String) :
    parseFeeds hashf now fetch urls =
      urls.foldr (fun u rest =>
        (match fetch u with
         | none => []
         | some f => normPrefix hashf now f.ftitle u f.entries) ++ rest) [] := by
  rw [parseFeeds, parseFeedsLoop_eq_append]
  rfl

/-! ## Claim C8: the player document track invariant -/

/-- Claim C8: emitted player tracks are exactly the projections of the
episodes whose resolved audio url is nonempty, hence every emitted
track carries a nonempty audioUrl and episodes without resolvable audio
are dropped. -/
theorem c8_player_track_invariant (eps : List PEpisode) :
    playerTracks eps =
      (eps.filter (fun e => resolveAudioUrl e != "")).map mkTrack ∧
    ∀ t ∈ playerTracks eps, t.audioUrl ≠ "" := by
  have hchar : playerTracks eps =
      (eps.filter (fun e => resolveAudioUrl e != "")).map mkTrack := by
    induction eps with
    | nil => rfl
    | cons e es ih =>
      by_cases h : resolveAudioUrl e = ""
      · rw [playerTracks, if_neg (by simpa [mkTrack] using h),
          List.filter_cons_of_neg (by simpa using h), ih]
      · rw [playerTracks, if_pos (by simpa [mkTrack] using h),
          List.filter_cons_of_pos (by simpa using h), List.map_cons, ih]
  refine ⟨hchar, ?_⟩
  intro t ht
  rw [hchar, List.mem_map] at ht
  obtain ⟨e, he, rfl⟩ := ht
  rw [List.mem_filter] at he
  have : resolveAudioUrl e ≠ "" := by simpa using he.2
  simpa [mkTrack] using this

/-- Witness for claim C8: the three episode demo feed, one episode of
which has no audio source, yields exactly two tracks, each with a
nonempty audio url. -/
theorem c8_witness :
    (∀ t ∈ playerTracks demoPlayerFeed, t.audioUrl ≠ "") ∧
    (playerTracks demoPlayerFeed).length = 2 :=
  ⟨(c8_player_track_invariant demoPlayerFeed).2, rfl⟩

/-! ## Claim C9: entries without a title -/

/-- Claim C9 is contradicted by the code: an entry with an id and a
summary but no title yields no normalized record at all, because the
eagerly evaluated id fallback reads the missing title attribute and the
resulting error makes the feed loop drop the entry, instead of the
placeholder Unknown Title the claim and the dead default in the source
promise. -/
theorem c9_missing_title_is_dropped :
    normalizeEntry demoHash "now" (some "Feed T") "urlT" noTitleEntry
      = none := rfl

/-! ## Claim C10: the type blind enclosure fallback of the player path -/

/-- The href scan is the first enclosure carrying an href key,
independent of its declared type. -/
theorem encLoopHref_eq_find (l : List PEnclosure) :
    encLoopHref l =
      (((l.find? (fun enc => enc.href.isSome)).bind
        (fun enc => enc.href)).getD "") := by
  induction l with
  | nil => rfl
  | cons enc t ih =>
    cases h : enc.href with
    | some u => simp [encLoopHref, List.find?_cons, h]
    | none => simp [encLoopHref, List.find?_cons, h, ih]

/-- Claim C10: when the media url is absent or empty, the resolved
audio url is the href of the first enclosure that has an href key,
whatever media type it declares, and an episode resolving to a nonempty
url this way is emitted as a track. -/
theorem c10_enclosure_fallback (e : PEpisode)
    (h : e.media_url = none ∨ e.media_url = some "") :
    resolveAudioUrl e =
      (((e.enclosures.getD []).find? (fun enc => enc.href.isSome)).bind
        (fun enc => enc.href)).getD "" ∧
    (resolveAudioUrl e ≠ "" → playerTracks [e] = [mkTrack e]) := by
  have hm : e.media_url.getD "" = "" := by
    rcases h with h | h <;> rw [h] <;> rfl
  constructor
  · rw [resolveAudioUrl, hm, if_neg (by simp)]
    cases he : e.enclosures with
    | none => rfl
    | some l =>
      cases l with
      | nil => rfl
      | cons enc t =>
        show (if 0 < (enc :: t).length then encLoopHref (enc :: t) else "") = _
        rw [if_pos (by simp), encLoopHref_eq_find]
        rfl
  · intro hne
    rw [playerTracks, if_pos (by simpa [mkTrack] using hne)]
    rfl

/-- Witness for claim C10: an episode whose only enclosure is a video
with an href is emitted with that very url as its audio url. -/
theorem c10_witness :
    resolveAudioUrl pepVideoOnly =
      (((pepVideoOnly.enclosures.getD []).find?
        (fun enc => enc.href.isSome)).bind (fun enc => enc.href)).getD "" ∧
    playerTracks [pepVideoOnly] = [mkTrack pepVideoOnly] :=
  ⟨(c10_enclosure_fallback pepVideoOnly (Or.inl rfl)).1,
   (c10_enclosure_fallback pepVideoOnly (Or.inl rfl)).2 (by decide)⟩

/-! ## Round trip of the json model: helper lemmas -/

/-- Valid characters avoid the surrogate range and the plane bound. -/
theorem char_toNat_valid (c : Char) :
    c.toNat < 55296 ∨ (57343 < c.toNat ∧ c.toNat < 1114112) := by
  rcases c.valid with h | ⟨h1, h2⟩
  · exact Or.inl h
  · exact Or.inr ⟨h1, h2⟩

/-- Reading one rendered hexadecimal digit gives its value back. -/
theorem hexDigitVal_hexDigit (d : Nat) (h : d < 16) :
    hexDigitVal (hexDigit d) = some d := by
  interval_cases d <;> decide

/-- Reading the four rendered hexadecimal digits of a code unit below
the sixteen bit bound gives the code unit back. -/
theorem hexQuad_hex4 (n : Nat) (h : n < 65536) :
    hexQuad (hexDigit (n / 4096 % 16)) (hexDigit (n / 256 % 16))
      (hexDigit (n / 16 % 16)) (hexDigit (n % 16)) = some n := by
  rw [hexQuad, hexDigitVal_hexDigit _ (Nat.mod_lt _ (by omega)),
    hexDigitVal_hexDigit _ (Nat.mod_lt _ (by omega)),
    hexDigitVal_hexDigit _ (Nat.mod_lt _ (by omega)),
    hexDigitVal_hexDigit _ (Nat.mod_lt _ (by omega))]
  have harith : ((n / 4096 % 16 * 16 + n / 256 % 16) * 16 + n / 16 % 16) * 16
      + n % 16 = n := by omega
  show some (((n / 4096 % 16 * 16 + n / 256 % 16) * 16 + n / 16 % 16) * 16
    + n % 16) = some n
  rw [harith]


/-- The scanner step on a quote. -/
theorem readStrF_quote (k : Nat) (t : List Char) :
    readStrF (k + 1) ('"' :: t) = some ([], t) := by
  rw [readStrF.eq_def]
  rfl

/-- The scanner step on a backslash u escape, one definitional unfold. -/
theorem readStrF_unicode (k : Nat) (a b c d : Char) (t : List Char) :
    readStrF (k + 1) ('\\' :: 'u' :: a :: b :: c :: d :: t) =
      (match hexQuad a b c d with
       | none => none
       | some n =>
         if 55296 ≤ n ∧ n < 56320 then
           match t with
           | e1 :: e2 :: a2 :: b2 :: c3 :: d2 :: r4 =>
             if e1 = '\\' ∧ e2 = 'u' then
               match hexQuad a2 b2 c3 d2 with
               | none => none
               | some m =>
                 if 56320 ≤ m ∧ m < 57344 then
                   match readStrF k r4 with
                   | some (cs, rest) =>
                     some (Char.ofNat (65536 + (n - 55296) * 1024
                       + (m - 56320)) :: cs, rest)
                   | none => none
                 else none
             else none
           | _ => none
         else if 56320 ≤ n ∧ n < 57344 then none
         else
           match readStrF k t with
           | some (cs, rest) => some (Char.ofNat n :: cs, rest)
           | none => none) := by
  rw [readStrF.eq_def]
  rfl

/-- The scanner step on a basic plane escape outside the surrogate
range. -/
theorem readStrF_unicode_val (k : Nat) (a b c d : Char) (n : Nat)
    (t : List Char) (hq : hexQuad a b c d = some n)
    (hno1 : ¬ (55296 ≤ n ∧ n < 56320))
    (hno2 : ¬ (56320 ≤ n ∧ n < 57344)) :
    readStrF (k + 1) ('\\' :: 'u' :: a :: b :: c :: d :: t) =
      match readStrF k t with
      | some (cs, rest) => some (Char.ofNat n :: cs, rest)
      | none => none := by
  rw [readStrF_unicode, hq]
  simp only [hno1, hno2, if_false, ite_false, if_neg]

/-- The scanner step on a well formed surrogate pair of escapes. -/
theorem readStrF_surrogate_val (k : Nat) (a b c d a2 b2 c2 d2 : Char)
    (n m : Nat) (t : List Char)
    (hq1 : hexQuad a b c d = some n) (hn : 55296 ≤ n ∧ n < 56320)
    (hq2 : hexQuad a2 b2 c2 d2 = some m) (hm : 56320 ≤ m ∧ m < 57344) :
    readStrF (k + 1) ('\\' :: 'u' :: a :: b :: c :: d ::
        '\\' :: 'u' :: a2 :: b2 :: c2 :: d2 :: t) =
      match readStrF k t with
      | some (cs, rest) =>
        some (Char.ofNat (65536 + (n - 55296) * 1024 + (m - 56320)) :: cs,
          rest)
      | none => none := by
  obtain ⟨hn1, hn2⟩ := hn
  obtain ⟨hm1, hm2⟩ := hm
  rw [readStrF_unicode, hq1]
  simp [hn1, hn2, hq2, hm1, hm2]

/-- One escaped character read back, with one unit of fuel consumed. -/
theorem readStrF_escChar (k : Nat) (c : Char) (t : List Char) :
    readStrF (k + 1) (escChar c ++ t) =
      match readStrF k t with
      | some (cs, rest) => some (c :: cs, rest)
      | none => none := by
  have hval := char_toNat_valid c
  by_cases h1 : c = '"'
  · subst h1
    show readStrF (k + 1) ('\\' :: '"' :: t) = _
    rw [readStrF.eq_def]
    rfl
  by_cases h2 : c = '\\'
  · subst h2
    show readStrF (k + 1) ('\\' :: '\\' :: t) = _
    rw [readStrF.eq_def]
    rfl
  by_cases h3 : c = '\x08'
  · subst h3
    show readStrF (k + 1) ('\\' :: 'b' :: t) = _
    rw [readStrF.eq_def]
    rfl
  by_cases h4 : c = '\x0c'
  · subst h4
    show readStrF (k + 1) ('\\' :: 'f' :: t) = _
    rw [readStrF.eq_def]
    rfl
  by_cases h5 : c = '\n'
  · subst h5
    show readStrF (k + 1) ('\\' :: 'n' :: t) = _
    rw [readStrF.eq_def]
    rfl
  by_cases h6 : c = '\r'
  · subst h6
    show readStrF (k + 1) ('\\' :: 'r' :: t) = _
    rw [readStrF.eq_def]
    rfl
  by_cases h7 : c = '\t'
  · subst h7
    show readStrF (k + 1) ('\\' :: 't' :: t) = _
    rw [readStrF.eq_def]
    rfl
  by_cases h8 : 32 ≤ c.toNat ∧ c.toNat ≤ 126
  · rw [escChar, if_neg h1, if_neg h2, if_neg h3, if_neg h4, if_neg h5,
      if_neg h6, if_neg h7, if_pos h8]
    show readStrF (k + 1) (c :: t) = _
    rw [readStrF.eq_def]
    show (if c = '"' then some ([], t)
      else if c = '\\' then _ else if c.toNat < 32 then none else _) = _
    rw [if_neg h1, if_neg h2, if_neg (by omega : ¬ c.toNat < 32)]
  by_cases h9 : c.toNat < 65536
  · rw [escChar, if_neg h1, if_neg h2, if_neg h3, if_neg h4, if_neg h5,
      if_neg h6, if_neg h7, if_neg h8, if_pos h9, hex4]
    show readStrF (k + 1) ('\\' :: 'u' :: hexDigit (c.toNat / 4096 % 16) ::
      hexDigit (c.toNat / 256 % 16) :: hexDigit (c.toNat / 16 % 16) ::
      hexDigit (c.toNat % 16) :: t) = _
    rw [readStrF_unicode_val k _ _ _ _ c.toNat t (hexQuad_hex4 c.toNat h9)
      (by omega) (by omega), Char.ofNat_toNat]
  · rw [escChar, if_neg h1, if_neg h2, if_neg h3, if_neg h4, if_neg h5,
      if_neg h6, if_neg h7, if_neg h8, if_neg h9, hex4, hex4]
    have hlt : c.toNat < 1114112 := by omega
    have hmod : (c.toNat - 65536) % 1024 < 1024 :=
      Nat.mod_lt _ (by omega : 0 < 1024)
    show readStrF (k + 1) ('\\' :: 'u' ::
      hexDigit ((55296 + (c.toNat - 65536) / 1024) / 4096 % 16) ::
      hexDigit ((55296 + (c.toNat - 65536) / 1024) / 256 % 16) ::
      hexDigit ((55296 + (c.toNat - 65536) / 1024) / 16 % 16) ::
      hexDigit ((55296 + (c.toNat - 65536) / 1024) % 16) :: '\\' :: 'u' ::
      hexDigit ((56320 + (c.toNat - 65536) % 1024) / 4096 % 16) ::
      hexDigit ((56320 + (c.toNat - 65536) % 1024) / 256 % 16) ::
      hexDigit ((56320 + (c.toNat - 65536) % 1024) / 16 % 16) ::
      hexDigit ((56320 + (c.toNat - 65536) % 1024) % 16) :: t) = _
    rw [readStrF_surrogate_val k _ _ _ _ _ _ _ _
      (55296 + (c.toNat - 65536) / 1024) (56320 + (c.toNat - 65536) % 1024)
      t (hexQuad_hex4 _ (by omega)) (by omega)
      (hexQuad_hex4 _ (by omega)) (by omega)]
    have hcomb : 65536 + (55296 + (c.toNat - 65536) / 1024 - 55296) * 1024
        + (56320 + (c.toNat - 65536) % 1024 - 56320) = c.toNat := by omega
    rw [hcomb, Char.ofNat_toNat]

/-- Every escape is at least one character long. -/
theorem escChar_length_pos (c : Char) : 1 ≤ (escChar c).length := by
  unfold escChar
  split_ifs <;> simp [hex4]

/-- Escaping never shortens a string. -/
theorem escStr_length_ge (cs : List Char) :
    cs.length ≤ (escStr cs).length := by
  induction cs with
  | nil => simp [escStr]
  | cons c cs ih =>
    have := escChar_length_pos c
    simp only [escStr, List.length_append, List.length_cons]
    omega

/-- A fully escaped string body reads back, with fuel one past the
character count. -/
theorem readStrF_escStr (cs : List Char) :
    ∀ k rest, readStrF (k + cs.length + 1) (escStr cs ++ '"' :: rest)
      = some (cs, rest) := by
  induction cs with
  | nil =>
    intro k rest
    show readStrF (k + 0 + 1) ('"' :: rest) = some ([], rest)
    rw [readStrF_quote]
  | cons c cs ih =>
    intro k rest
    have harr : escStr (c :: cs) ++ '"' :: rest
        = escChar c ++ (escStr cs ++ '"' :: rest) := by
      simp [escStr]
    have hfuel : k + (c :: cs).length + 1 = (k + cs.length + 1) + 1 := by
      simp only [List.length_cons]
      omega
    rw [harr, hfuel, readStrF_escChar, ih k rest]

/-- The string scanner of json.loads reads a dumped body back. -/
theorem readStr_escStr (cs rest : List Char) :
    readStr (escStr cs ++ '"' :: rest) = some (cs, rest) := by
  unfold readStr
  have hlen : (escStr cs ++ '"' :: rest).length
      = ((escStr cs).length - cs.length + rest.length) + cs.length + 1 := by
    have := escStr_length_ge cs
    simp only [List.length_append, List.length_cons]
    omega
  rw [hlen, readStrF_escStr]

/-- The digit rendering fuel is irrelevant once it covers the number. -/
theorem natCharsAux_fuel : ∀ n fuel, n ≤ fuel →
    natCharsAux fuel n = natCharsAux n n := by
  intro n
  induction n using Nat.strong_induction_on with
  | _ n ih =>
    intro fuel hle
    cases fuel with
    | zero =>
      have hn : n = 0 := by omega
      subst hn
      rfl
    | succ f =>
      cases n with
      | zero => simp [natCharsAux]
      | succ m =>
        show natCharsAux (f + 1) (m + 1) = natCharsAux (m + 1) (m + 1)
        simp only [natCharsAux]
        by_cases h10 : m + 1 < 10
        · rw [if_pos h10, if_pos h10]
        · rw [if_neg h10, if_neg h10]
          congr 1
          rw [ih ((m + 1) / 10) (by omega) f (by omega),
            ih ((m + 1) / 10) (by omega) m (by omega)]

/-- The recurrence the digit rendering satisfies. -/
theorem natChars_eq (n : Nat) :
    natChars n = if n < 10 then [Char.ofNat (48 + n)]
      else natChars (n / 10) ++ [Char.ofNat (48 + n % 10)] := by
  show natCharsAux n n = _
  cases n with
  | zero => simp [natCharsAux]
  | succ m =>
    show natCharsAux (m + 1) (m + 1) = _
    simp only [natCharsAux]
    by_cases h10 : m + 1 < 10
    · rw [if_pos h10, if_pos h10]
    · rw [if_neg h10, if_neg h10]
      congr 1
      exact natCharsAux_fuel ((m + 1) / 10) m (by omega)

/-- A rendered digit is a digit character. -/
theorem isDigitL_render (d : Nat) (h : d < 10) :
    isDigitL (Char.ofNat (48 + d)) = true := by
  have hv : (Char.ofNat (48 + d)).toNat = 48 + d :=
    toNat_ofNat_of_valid (Or.inl (by omega))
  unfold isDigitL
  rw [Bool.and_eq_true, decide_eq_true_eq, decide_eq_true_eq, hv]
  omega

/-- Rendered numbers are nonempty strings of digit characters whose
head is never the zero digit unless the number is zero. -/
theorem natChars_cons (n : Nat) :
    ∃ c t, natChars n = c :: t ∧ isDigitL c = true ∧
      (∀ x ∈ natChars n, isDigitL x = true) ∧ (n ≠ 0 → c ≠ '0') := by
  induction n using Nat.strong_induction_on with
  | _ n ih =>
    rw [natChars_eq]
    by_cases h10 : n < 10
    · rw [if_pos h10]
      refine ⟨Char.ofNat (48 + n), [], rfl, isDigitL_render n h10, ?_, ?_⟩
      · intro x hx
        rw [List.mem_singleton] at hx
        subst hx
        exact isDigitL_render n h10
      · intro hn hc
        have hv : (Char.ofNat (48 + n)).toNat = 48 + n :=
          toNat_ofNat_of_valid (Or.inl (by omega))
        rw [hc] at hv
        have : ('0' : Char).toNat = 48 := by decide
        omega
    · rw [if_neg h10]
      obtain ⟨c, t, hct, hdig, hall, hz⟩ := ih (n / 10) (by omega)
      rw [hct]
      refine ⟨c, t ++ [Char.ofNat (48 + n % 10)], rfl, hdig, ?_, ?_⟩
      · intro x hx
        rw [List.cons_append, List.mem_cons, List.mem_append,
          List.mem_singleton] at hx
        rcases hx with hx | hx | hx
        · subst hx; exact hdig
        · exact hall x (hct ▸ List.mem_cons_of_mem c hx)
        · subst hx; exact isDigitL_render _ (Nat.mod_lt _ (by omega))
      · intro _
        exact hz (by omega)

/-- The numeric value of the rendered digits. -/
theorem digitsVal_natChars (n : Nat) : digitsVal (natChars n) = n := by
  induction n using Nat.strong_induction_on with
  | _ n ih =>
    rw [natChars_eq]
    by_cases h10 : n < 10
    · rw [if_pos h10]
      have hv : (Char.ofNat (48 + n)).toNat = 48 + n :=
        toNat_ofNat_of_valid (Or.inl (by omega))
      simp [digitsVal, hv]
    · rw [if_neg h10]
      have hv : (Char.ofNat (48 + n % 10)).toNat = 48 + n % 10 :=
        toNat_ofNat_of_valid (Or.inl (by omega))
      have hmain := ih (n / 10) (by omega)
      simp only [digitsVal, List.foldl_append, List.foldl_cons,
        List.foldl_nil] at hmain ⊢
      rw [hmain, hv]
      omega

/-- One scanner step of the integer part on a nonempty input. -/
theorem readIntPart_cons (c : Char) (r : List Char) :
    readIntPart (c :: r) = if c = '0' then some (0, r)
      else if isDigitL c then
        some (digitsVal (c :: r.takeWhile isDigitL), r.dropWhile isDigitL)
      else none := by
  rw [readIntPart.eq_def]

/-- One scanner step of the number reader on a nonempty input. -/
theorem readNum_cons (c : Char) (r : List Char) :
    readNum (c :: r) = if c = '-' then
        match readIntPart r with
        | some (n, rest) =>
          if floatCont rest then none else some (-(n : Int), rest)
        | none => none
      else
        match readIntPart (c :: r) with
        | some (n, rest) =>
          if floatCont rest then none else some ((n : Int), rest)
        | none => none := by
  rw [readNum.eq_def]

/-- A separator boundary never starts with a digit. -/
theorem sepOK_digitStart {rest : List Char} (h : sepOK rest = true) :
    digitStart rest = false := by
  cases rest with
  | nil => rfl
  | cons c t =>
    simp only [sepOK, Bool.or_eq_true, beq_iff_eq] at h
    rcases h with (h | h) | h <;> subst h <;> rfl

/-- A separator boundary never continues a number into a float. -/
theorem sepOK_floatCont {rest : List Char} (h : sepOK rest = true) :
    floatCont rest = false := by
  cases rest with
  | nil => rfl
  | cons c t =>
    simp only [sepOK, Bool.or_eq_true, beq_iff_eq] at h
    rcases h with (h | h) | h <;> subst h <;> rfl

/-- A digit run followed by a non digit splits cleanly under takeWhile
and dropWhile. -/
theorem takeWhile_digit_run (ds : List Char)
    (hds : ∀ c ∈ ds, isDigitL c = true)
    (rest : List Char) (hrest : digitStart rest = false) :
    (ds ++ rest).takeWhile isDigitL = ds ∧
      (ds ++ rest).dropWhile isDigitL = rest := by
  induction ds with
  | nil =>
    cases rest with
    | nil => exact ⟨rfl, rfl⟩
    | cons c t =>
      have hc : isDigitL c = false := hrest
      simp [List.takeWhile, List.dropWhile, hc]
  | cons d ds ih =>
    have hd : isDigitL d = true := hds d (List.mem_cons_self d ds)
    obtain ⟨h1, h2⟩ := ih (fun c hc => hds c (List.mem_cons_of_mem d hc))
    simp [List.takeWhile, List.dropWhile, hd, h1, h2]

/-- The integer part scanner reads a rendered natural number back. -/
theorem readIntPart_natChars (n : Nat) (rest : List Char)
    (hrest : digitStart rest = false) :
    readIntPart (natChars n ++ rest) = some (n, rest) := by
  obtain ⟨c, t, hct, hdig, hall, hz⟩ := natChars_cons n
  by_cases hn : n = 0
  · subst hn
    have h0 : natChars 0 = ['0'] := by
      rw [natChars_eq, if_pos (by omega)]
    rw [h0]
    show readIntPart ('0' :: rest) = some (0, rest)
    rw [readIntPart_cons, if_pos rfl]
  · rw [hct]
    have htail : ∀ x ∈ t, isDigitL x = true := by
      intro x hx
      exact hall x (hct ▸ List.mem_cons_of_mem c hx)
    obtain ⟨htake, hdrop⟩ := takeWhile_digit_run t htail rest hrest
    show readIntPart (c :: (t ++ rest)) = some (n, rest)
    rw [readIntPart_cons, if_neg (hz hn), if_pos hdig, htake, hdrop]
    have hval : digitsVal (c :: t) = n := by
      rw [← hct]
      exact digitsVal_natChars n
    rw [hval]

/-- A digit head is not a minus sign. -/
theorem digit_ne_minus {c : Char} (h : isDigitL c = true) : ¬ c = '-' := by
  intro hc
  subst hc
  exact absurd h (by decide)

/-- The number scanner reads a rendered integer back whenever a json
separator or the end of input follows. -/
theorem readNum_intChars (i : Int) (rest : List Char)
    (hsep : sepOK rest = true) :
    readNum (intChars i ++ rest) = some (i, rest) := by
  have hds := sepOK_digitStart hsep
  have hfc := sepOK_floatCont hsep
  by_cases hneg : i < 0
  · rw [intChars, if_pos hneg]
    show readNum ('-' :: (natChars i.natAbs ++ rest)) = some (i, rest)
    rw [readNum_cons, if_pos rfl, readIntPart_natChars i.natAbs rest hds]
    show (if floatCont rest = true then none
      else some (-(i.natAbs : Int), rest)) = some (i, rest)
    rw [hfc, if_neg (by decide : ¬ (false = true))]
    have hi : -(i.natAbs : Int) = i := by omega
    rw [hi]
  · rw [intChars, if_neg hneg]
    obtain ⟨c, t, hct, hdig, _, _⟩ := natChars_cons i.natAbs
    rw [hct]
    show readNum (c :: (t ++ rest)) = some (i, rest)
    rw [readNum_cons, if_neg (digit_ne_minus hdig)]
    have hback : c :: (t ++ rest) = natChars i.natAbs ++ rest := by
      rw [hct]
      rfl
    rw [hback, readIntPart_natChars i.natAbs rest hds]
    show (if floatCont rest = true then none
      else some ((i.natAbs : Int), rest)) = some (i, rest)
    rw [hfc, if_neg (by decide : ¬ (false = true))]
    have hi : ((i.natAbs : Int)) = i := by omega
    rw [hi]

/-- Whitespace skipping leaves a non whitespace head alone. -/
theorem skipPyWs_cons {c : Char} (t : List Char)
    (h : ¬ (c = ' ' ∨ c = '\t' ∨ c = '\n' ∨ c = '\r')) :
    skipPyWs (c :: t) = c :: t := by
  simp only [skipPyWs]
  rw [if_neg h]

/-- Whitespace skipping eats a leading space. -/
theorem skipPyWs_space (cs : List Char) :
    skipPyWs (' ' :: cs) = skipPyWs cs := by
  simp [skipPyWs]

/-- One definitional step of the value scanner at successor fuel. -/
theorem scanValue_step (fuel : Nat) (cs : List Char) :
    scanValue (fuel + 1) cs =
      match skipPyWs cs with
      | [] => none
      | c :: r =>
        if c = 'n' then
          match r with
          | x1 :: x2 :: x3 :: r2 =>
            if x1 = 'u' ∧ x2 = 'l' ∧ x3 = 'l' then some (Json.null, r2)
            else none
          | _ => none
        else if c = 't' then
          match r with
          | x1 :: x2 :: x3 :: r2 =>
            if x1 = 'r' ∧ x2 = 'u' ∧ x3 = 'e' then some (Json.bool true, r2)
            else none
          | _ => none
        else if c = 'f' then
          match r with
          | x1 :: x2 :: x3 :: x4 :: r2 =>
            if x1 = 'a' ∧ x2 = 'l' ∧ x3 = 's' ∧ x4 = 'e' then
              some (Json.bool false, r2)
            else none
          | _ => none
        else if c = '"' then
          match readStr r with
          | some (cs2, rest) => some (Json.str (String.mk cs2), rest)
          | none => none
        else if c = '[' then
          match skipPyWs r with
          | [] => none
          | c2 :: r2 =>
            if c2 = ']' then some (Json.arr [], r2)
            else
              match scanItems fuel (c2 :: r2) with
              | some (vs, rest) => some (Json.arr vs, rest)
              | none => none
        else if c = '\x7b' then
          match skipPyWs r with
          | [] => none
          | c2 :: r2 =>
            if c2 = '\x7d' then some (Json.obj [], r2)
            else
              match scanPairs fuel (c2 :: r2) with
              | some (ps, rest) => some (Json.obj (buildObj ps), rest)
              | none => none
        else if c = '-' ∨ isDigitL c then
          match readNum (c :: r) with
          | some (i, rest) => some (Json.num i, rest)
          | none => none
        else none := by
  rw [scanValue.eq_def]

/-- One definitional step of the item scanner at successor fuel. -/
theorem scanItems_step (fuel : Nat) (cs : List Char) :
    scanItems (fuel + 1) cs =
      match scanValue fuel cs with
      | none => none
      | some (v, r) =>
        match skipPyWs r with
        | c :: r2 =>
          if c = ',' then
            match scanItems fuel r2 with
            | some (vs, rest) => some (v :: vs, rest)
            | none => none
          else if c = ']' then some ([v], r2)
          else none
        | [] => none := by
  rw [scanItems.eq_def]

/-- One definitional step of the member scanner at successor fuel. -/
theorem scanPairs_step (fuel : Nat) (cs : List Char) :
    scanPairs (fuel + 1) cs =
      match skipPyWs cs with
      | c :: r =>
        if c = '"' then
          match readStr r with
          | none => none
          | some (kcs, r1) =>
            match skipPyWs r1 with
            | c2 :: r2 =>
              if c2 = ':' then
                match scanValue fuel r2 with
                | none => none
                | some (v, r3) =>
                  match skipPyWs r3 with
                  | c3 :: r4 =>
                    if c3 = ',' then
                      match scanPairs fuel r4 with
                      | some (ps, rest) =>
                        some ((String.mk kcs, v) :: ps, rest)
                      | none => none
                    else if c3 = '\x7d' then some ([(String.mk kcs, v)], r4)
                    else none
                  | [] => none
              else none
            | [] => none
        else none
      | [] => none := by
  rw [scanPairs.eq_def]

/-- The value scanner ignores one leading space. -/
theorem scanValue_space (fuel : Nat) (cs : List Char) :
    scanValue fuel (' ' :: cs) = scanValue fuel cs := by
  cases fuel with
  | zero => rfl
  | succ f => rfl

/-- The item scanner ignores one leading space. -/
theorem scanItems_space (fuel : Nat) (cs : List Char) :
    scanItems fuel (' ' :: cs) = scanItems fuel cs := by
  cases fuel with
  | zero => rfl
  | succ f =>
    rw [scanItems_step f (' ' :: cs), scanItems_step f cs, scanValue_space]

/-- The member scanner ignores one leading space. -/
theorem scanPairs_space (fuel : Nat) (cs : List Char) :
    scanPairs fuel (' ' :: cs) = scanPairs fuel cs := by
  cases fuel with
  | zero => rfl
  | succ f => rfl

/-- A digit character is none of the dispatch characters the scanner
treats specially. -/
theorem digit_not_special {c : Char} (h : isDigitL c = true) :
    ¬ (c = ' ' ∨ c = '\t' ∨ c = '\n' ∨ c = '\r') ∧ c ≠ ']' ∧ c ≠ '\x7d' ∧
      c ≠ 'n' ∧ c ≠ 't' ∧ c ≠ 'f' ∧ c ≠ '"' ∧ c ≠ '[' ∧ c ≠ '\x7b' := by
  refine ⟨?_, ?_, ?_, ?_, ?_, ?_, ?_, ?_, ?_⟩
  · rintro (rfl | rfl | rfl | rfl) <;> exact absurd h (by decide)
  all_goals intro hc
  all_goals subst hc
  all_goals exact absurd h (by decide)

/-- Every dumped value starts with a character that is not whitespace
and closes neither an array nor an object. -/
theorem dumpsVal_head (v : Json) :
    ∃ c t, dumpsVal v = c :: t ∧
      ¬ (c = ' ' ∨ c = '\t' ∨ c = '\n' ∨ c = '\r') ∧
      c ≠ ']' ∧ c ≠ '\x7d' := by
  cases v with
  | null => refine ⟨_, _, rfl, ?_, ?_, ?_⟩ <;> decide
  | bool b => cases b <;> (refine ⟨_, _, rfl, ?_, ?_, ?_⟩ <;> decide)
  | str s => refine ⟨_, _, rfl, ?_, ?_, ?_⟩ <;> decide
  | arr xs => refine ⟨_, _, rfl, ?_, ?_, ?_⟩ <;> decide
  | obj ps => refine ⟨_, _, rfl, ?_, ?_, ?_⟩ <;> decide
  | num i =>
    show ∃ c t, intChars i = c :: t ∧ _
    by_cases hneg : i < 0
    · rw [intChars, if_pos hneg]
      exact ⟨'-', _, rfl, by decide, by decide, by decide⟩
    · rw [intChars, if_neg hneg]
      obtain ⟨c, t, hct, hdig, _, _⟩ := natChars_cons i.natAbs
      obtain ⟨hws, hbr, hbc, _⟩ := digit_not_special hdig
      exact ⟨c, t, hct, hws, hbr, hbc⟩

/-- The whitespace skipper leaves any dumped value alone. -/
theorem skipPyWs_dumps (v : Json) (rest : List Char) :
    skipPyWs (dumpsVal v ++ rest) = dumpsVal v ++ rest := by
  obtain ⟨c, t, hct, hws, _, _⟩ := dumpsVal_head v
  rw [hct, List.cons_append, skipPyWs_cons _ hws]

/-- Inserting a key absent from the dictionary appends it. -/
theorem dictInsert_fresh (acc : List (String × Json)) (k : String)
    (v : Json) (h : acc.any (fun p => p.1 == k) = false) :
    dictInsert acc k v = acc ++ [(k, v)] := by
  rw [dictInsert, h]
  rfl

/-- Folding dict insertion over members with pairwise distinct keys,
all fresh for the accumulator, just appends them in order. -/
theorem buildObj_acc (ps : List (String × Json)) :
    ∀ acc, (∀ q ∈ ps, acc.any (fun p => p.1 == q.1) = false) →
      keysUnique ps = true →
      ps.foldl (fun acc p => dictInsert acc p.1 p.2) acc = acc ++ ps := by
  induction ps with
  | nil =>
    intro acc _ _
    simp
  | cons q qs ih =>
    intro acc hfresh huniq
    obtain ⟨k, v⟩ := q
    have huniq' : qs.any (fun p => p.1 == k) = false ∧
        keysUnique qs = true := by
      have := huniq
      rw [keysUnique] at this
      rw [Bool.and_eq_true, Bool.not_eq_true'] at this
      exact this
    rw [List.foldl_cons,
      dictInsert_fresh acc k v (hfresh (k, v) (List.mem_cons_self _ _))]
    rw [ih (acc ++ [(k, v)]) ?_ huniq'.2]
    · rw [List.append_assoc]
      rfl
    · intro r hr
      rw [List.any_append, Bool.or_eq_false_iff]
      refine ⟨hfresh r (List.mem_cons_of_mem _ hr), ?_⟩
      show (k == r.1 || false) = false
      rw [Bool.or_false]
      have hrk : (r.1 == k) = false := by
        have := huniq'.1
        rw [List.any_eq_false] at this
        exact Bool.not_eq_true _ ▸ (by
          have hh := this r hr
          simpa using hh)
      rw [beq_eq_false_iff_ne] at hrk
      rw [beq_eq_false_iff_ne]
      exact fun hkr => hrk hkr.symm

/-- A scanned member list with pairwise distinct keys builds back into
itself as a dictionary. -/
theorem buildObj_unique (ps : List (String × Json))
    (h : keysUnique ps = true) : buildObj ps = ps := by
  rw [buildObj, buildObj_acc ps [] ?_ h]
  · rfl
  · intro q _
    rfl

/-- The scanner on a dumped null literal. -/
theorem scanValue_null (fuel : Nat) (r : List Char) :
    scanValue (fuel + 1) ('n' :: 'u' :: 'l' :: 'l' :: r)
      = some (Json.null, r) := by
  rw [scanValue_step, skipPyWs_cons _ (by decide)]
  rfl

/-- The scanner on a dumped true literal. -/
theorem scanValue_true (fuel : Nat) (r : List Char) :
    scanValue (fuel + 1) ('t' :: 'r' :: 'u' :: 'e' :: r)
      = some (Json.bool true, r) := by
  rw [scanValue_step, skipPyWs_cons _ (by decide)]
  rfl

/-- The scanner on a dumped false literal. -/
theorem scanValue_false (fuel : Nat) (r : List Char) :
    scanValue (fuel + 1) ('f' :: 'a' :: 'l' :: 's' :: 'e' :: r)
      = some (Json.bool false, r) := by
  rw [scanValue_step, skipPyWs_cons _ (by decide)]
  rfl

/-- The scanner on an opening quote. -/
theorem scanValue_quote (fuel : Nat) (r : List Char) :
    scanValue (fuel + 1) ('"' :: r) =
      match readStr r with
      | some (cs2, rest) => some (Json.str (String.mk cs2), rest)
      | none => none := by
  rw [scanValue_step, skipPyWs_cons _ (by decide)]
  rfl

/-- The scanner on an opening bracket. -/
theorem scanValue_lbracket (fuel : Nat) (r : List Char) :
    scanValue (fuel + 1) ('[' :: r) =
      (match skipPyWs r with
       | [] => none
       | c2 :: r2 =>
         if c2 = ']' then some (Json.arr [], r2)
         else
           match scanItems fuel (c2 :: r2) with
           | some (vs, rest) => some (Json.arr vs, rest)
           | none => none) := by
  rw [scanValue_step, skipPyWs_cons _ (by decide)]
  rfl

/-- The scanner on an opening brace. -/
theorem scanValue_lbrace (fuel : Nat) (r : List Char) :
    scanValue (fuel + 1) ('\x7b' :: r) =
      (match skipPyWs r with
       | [] => none
       | c2 :: r2 =>
         if c2 = '\x7d' then some (Json.obj [], r2)
         else
           match scanPairs fuel (c2 :: r2) with
           | some (ps, rest) => some (Json.obj (buildObj ps), rest)
           | none => none) := by
  rw [scanValue_step, skipPyWs_cons _ (by decide)]
  rfl

/-- A digit is one of its ten concrete characters. -/
theorem digit_char_cases {c : Char} (h : isDigitL c = true) :
    c = '0' ∨ c = '1' ∨ c = '2' ∨ c = '3' ∨ c = '4' ∨ c = '5' ∨
      c = '6' ∨ c = '7' ∨ c = '8' ∨ c = '9' := by
  have hofn : Char.ofNat c.toNat = c := Char.ofNat_toNat c
  rw [isDigitL, Bool.and_eq_true, decide_eq_true_eq, decide_eq_true_eq] at h
  have h48 : c.toNat = 48 ∨ c.toNat = 49 ∨ c.toNat = 50 ∨ c.toNat = 51 ∨
      c.toNat = 52 ∨ c.toNat = 53 ∨ c.toNat = 54 ∨ c.toNat = 55 ∨
      c.toNat = 56 ∨ c.toNat = 57 := by omega
  rcases h48 with hv | hv | hv | hv | hv | hv | hv | hv | hv | hv <;>
    rw [hv] at hofn <;> simp [← hofn]

/-- The scanner on a number head: minus sign or digit. -/
theorem scanValue_numhead (fuel : Nat) (c : Char) (r : List Char)
    (h : c = '-' ∨ isDigitL c = true) :
    scanValue (fuel + 1) (c :: r) =
      match readNum (c :: r) with
      | some (i, rest) => some (Json.num i, rest)
      | none => none := by
  rcases h with rfl | hd
  · rw [scanValue_step, skipPyWs_cons _ (by decide)]
    rfl
  · rcases digit_char_cases hd with
      rfl | rfl | rfl | rfl | rfl | rfl | rfl | rfl | rfl | rfl <;>
      (rw [scanValue_step, skipPyWs_cons _ (by decide)]; rfl)

/-- Array well formedness at a cons splits into head and tail. -/
theorem listWF_cons {x : Json} {xs : List Json}
    (h : listWF (x :: xs) = true) : jsonWF x = true ∧ listWF xs = true := by
  simp only [listWF, Bool.and_eq_true] at h
  exact h

/-- Member well formedness at a cons splits into value and tail. -/
theorem pairsWF_cons {k : String} {v : Json} {ps : List (String × Json)}
    (h : pairsWF ((k, v) :: ps) = true) :
    jsonWF v = true ∧ pairsWF ps = true := by
  simp only [pairsWF, Bool.and_eq_true] at h
  exact h

/-- A rendered integer starts with a minus sign or a digit. -/
theorem intChars_head (i : Int) :
    ∃ c t, intChars i = c :: t ∧ (c = '-' ∨ isDigitL c = true) := by
  by_cases hneg : i < 0
  · rw [intChars, if_pos hneg]
    exact ⟨'-', _, rfl, Or.inl rfl⟩
  · rw [intChars, if_neg hneg]
    obtain ⟨c, t, hct, hdig, _, _⟩ := natChars_cons i.natAbs
    exact ⟨c, t, hct, Or.inr hdig⟩

/-- Every dumped value is at least one character long. -/
theorem dumpsVal_length_pos (v : Json) : 1 ≤ (dumpsVal v).length := by
  obtain ⟨c, t, hct, _, _, _⟩ := dumpsVal_head v
  rw [hct]
  simp

mutual

/-- The value scanner reads any dumped well formed value back whenever
enough fuel is supplied and a separator or end of input follows. -/
theorem rtValue : ∀ (v : Json) (fuel : Nat) (rest : List Char),
    jsonWF v = true → (dumpsVal v).length < fuel → sepOK rest = true →
    scanValue fuel (dumpsVal v ++ rest) = some (v, rest)
  | Json.null, fuel, rest, _, hf, _ => by
    cases fuel with
    | zero => exact absurd hf (Nat.not_lt_zero _)
    | succ f =>
      have h : dumpsVal Json.null ++ rest
          = 'n' :: 'u' :: 'l' :: 'l' :: rest := rfl
      rw [h]
      exact scanValue_null f rest
  | Json.bool true, fuel, rest, _, hf, _ => by
    cases fuel with
    | zero => exact absurd hf (Nat.not_lt_zero _)
    | succ f =>
      have h : dumpsVal (Json.bool true) ++ rest
          = 't' :: 'r' :: 'u' :: 'e' :: rest := rfl
      rw [h]
      exact scanValue_true f rest
  | Json.bool false, fuel, rest, _, hf, _ => by
    cases fuel with
    | zero => exact absurd hf (Nat.not_lt_zero _)
    | succ f =>
      have h : dumpsVal (Json.bool false) ++ rest
          = 'f' :: 'a' :: 'l' :: 's' :: 'e' :: rest := rfl
      rw [h]
      exact scanValue_false f rest
  | Json.num i, fuel, rest, _, hf, hsep => by
    cases fuel with
    | zero => exact absurd hf (Nat.not_lt_zero _)
    | succ f =>
      obtain ⟨c, t, hct, hcd⟩ := intChars_head i
      have harr : dumpsVal (Json.num i) ++ rest = c :: (t ++ rest) := by
        show intChars i ++ rest = c :: (t ++ rest)
        rw [hct]
        rfl
      rw [harr, scanValue_numhead f c (t ++ rest) hcd]
      have hback : c :: (t ++ rest) = intChars i ++ rest := by
        rw [hct]
        rfl
      rw [hback, readNum_intChars i rest hsep]
  | Json.str s, fuel, rest, _, hf, _ => by
    cases fuel with
    | zero => exact absurd hf (Nat.not_lt_zero _)
    | succ f =>
      have harr : dumpsVal (Json.str s) ++ rest
          = '"' :: (escStr s.data ++ '"' :: rest) := by
        show '"' :: (escStr s.data ++ ['"']) ++ rest = _
        simp
      rw [harr, scanValue_quote, readStr_escStr]
  | Json.arr [], fuel, rest, _, hf, _ => by
    cases fuel with
    | zero => exact absurd hf (Nat.not_lt_zero _)
    | succ f =>
      have harr : dumpsVal (Json.arr []) ++ rest = '[' :: ']' :: rest := rfl
      rw [harr, scanValue_lbracket, skipPyWs_cons _ (by decide)]
      rfl
  | Json.arr (x :: xs), fuel, rest, hwf, hf, _ => by
    cases fuel with
    | zero => exact absurd hf (Nat.not_lt_zero _)
    | succ f =>
      have hwfl : listWF (x :: xs) = true := hwf
      have harr : dumpsVal (Json.arr (x :: xs)) ++ rest
          = '[' :: (dumpsItems (x :: xs) ++ ']' :: rest) := by
        show '[' :: (dumpsItems (x :: xs) ++ [']']) ++ rest = _
        simp
      have hlen : (dumpsVal (Json.arr (x :: xs))).length
          = (dumpsItems (x :: xs)).length + 2 := by
        show ('[' :: (dumpsItems (x :: xs) ++ [']'])).length = _
        simp
      rw [harr, scanValue_lbracket]
      obtain ⟨c, t, hct, hws, hbr, _⟩ := dumpsVal_head x
      have hu : ∃ u, dumpsItems (x :: xs) = dumpsVal x ++ u := by
        cases xs with
        | nil => exact ⟨[], by simp [dumpsItems]⟩
        | cons y ys =>
          exact ⟨',' :: ' ' :: dumpsItems (y :: ys), by simp [dumpsItems]⟩
      obtain ⟨u, hu⟩ := hu
      have hshape : dumpsItems (x :: xs) ++ ']' :: rest
          = c :: (t ++ u ++ ']' :: rest) := by
        rw [hu, hct]
        simp
      rw [hshape, skipPyWs_cons _ hws]
      simp only []
      rw [if_neg hbr]
      rw [show c :: (t ++ u ++ ']' :: rest)
            = dumpsItems (x :: xs) ++ ']' :: rest from hshape.symm]
      rw [rtItems x xs f rest hwfl (by omega)]
  | Json.obj [], fuel, rest, _, hf, _ => by
    cases fuel with
    | zero => exact absurd hf (Nat.not_lt_zero _)
    | succ f =>
      have harr : dumpsVal (Json.obj []) ++ rest
          = '\x7b' :: '\x7d' :: rest := rfl
      rw [harr, scanValue_lbrace, skipPyWs_cons _ (by decide)]
      rfl
  | Json.obj ((k, v) :: ps), fuel, rest, hwf, hf, _ => by
    cases fuel with
    | zero => exact absurd hf (Nat.not_lt_zero _)
    | succ f =>
      have hko : keysUnique ((k, v) :: ps) = true ∧
          pairsWF ((k, v) :: ps) = true := by
        have h := hwf
        simp only [jsonWF, Bool.and_eq_true] at h
        exact h
      have harr : dumpsVal (Json.obj ((k, v) :: ps)) ++ rest
          = '\x7b' :: (dumpsPairs ((k, v) :: ps) ++ '\x7d' :: rest) := by
        show '\x7b' :: (dumpsPairs ((k, v) :: ps) ++ ['\x7d']) ++ rest = _
        simp
      have hlen : (dumpsVal (Json.obj ((k, v) :: ps))).length
          = (dumpsPairs ((k, v) :: ps)).length + 2 := by
        show ('\x7b' :: (dumpsPairs ((k, v) :: ps) ++ ['\x7d'])).length = _
        simp
      rw [harr, scanValue_lbrace]
      have hu : ∃ u, dumpsPairs ((k, v) :: ps) = '"' :: u := by
        cases ps with
        | nil =>
          exact ⟨escStr k.data ++ '"' :: ':' :: ' ' :: dumpsVal v, by
            simp [dumpsPairs]⟩
        | cons p ps2 =>
          exact ⟨(escStr k.data ++ '"' :: ':' :: ' ' :: dumpsVal v) ++
              ',' :: ' ' :: dumpsPairs (p :: ps2), by simp [dumpsPairs]⟩
      obtain ⟨u, hu⟩ := hu
      have hshape : dumpsPairs ((k, v) :: ps) ++ '\x7d' :: rest
          = '"' :: (u ++ '\x7d' :: rest) := by
        rw [hu]
        rfl
      rw [hshape, skipPyWs_cons _ (by decide)]
      simp only []
      rw [if_neg (by decide : ¬ ('"' : Char) = '\x7d')]
      rw [show ('"' : Char) :: (u ++ '\x7d' :: rest)
            = dumpsPairs ((k, v) :: ps) ++ '\x7d' :: rest from hshape.symm]
      rw [rtPairs k v ps f rest hko.2 (by omega)]
      simp only []
      rw [buildObj_unique _ hko.1]
termination_by v fuel rest h1 h2 h3 => sizeOf v
decreasing_by
  all_goals simp_wf
  all_goals omega

/-- The item scanner reads a dumped nonempty item list back through the
closing bracket. -/
theorem rtItems : ∀ (x : Json) (xs : List Json) (fuel : Nat)
    (rest : List Char), listWF (x :: xs) = true →
    (dumpsItems (x :: xs)).length + 1 < fuel →
    scanItems fuel (dumpsItems (x :: xs) ++ ']' :: rest)
      = some (x :: xs, rest)
  | x, [], fuel, rest, hwf, hf => by
    cases fuel with
    | zero => exact absurd hf (Nat.not_lt_zero _)
    | succ f =>
      have hwfx : jsonWF x = true := (listWF_cons hwf).1
      have hone : dumpsItems [x] = dumpsVal x := by
        simp [dumpsItems]
      have hlen : (dumpsVal x).length < f := by
        rw [hone] at hf
        omega
      rw [scanItems_step, hone, rtValue x f (']' :: rest) hwfx hlen (by rfl)]
      rfl
  | x, y :: ys, fuel, rest, hwf, hf => by
    cases fuel with
    | zero => exact absurd hf (Nat.not_lt_zero _)
    | succ f =>
      obtain ⟨hwfx, hwft⟩ := listWF_cons hwf
      have hcons : dumpsItems (x :: y :: ys)
          = dumpsVal x ++ ',' :: ' ' :: dumpsItems (y :: ys) := by
        simp [dumpsItems]
      have hlen : (dumpsItems (x :: y :: ys)).length
          = (dumpsVal x).length + 2 + (dumpsItems (y :: ys)).length := by
        rw [hcons]
        simp only [List.length_append, List.length_cons]
        omega
      have hvx : 1 ≤ (dumpsVal x).length := dumpsVal_length_pos x
      have harr : dumpsItems (x :: y :: ys) ++ ']' :: rest
          = dumpsVal x ++
              (',' :: ' ' :: (dumpsItems (y :: ys) ++ ']' :: rest)) := by
        rw [hcons]
        simp
      rw [scanItems_step, harr]
      rw [rtValue x f (',' :: ' ' :: (dumpsItems (y :: ys) ++ ']' :: rest))
        hwfx (by omega) (by rfl)]
      simp only []
      rw [skipPyWs_cons _ (by decide)]
      simp only [if_true]
      rw [scanItems_space]
      rw [rtItems y ys f rest hwft (by omega)]
termination_by x xs fuel rest h1 h2 => 1 + sizeOf x + sizeOf xs
decreasing_by
  all_goals simp_wf
  all_goals omega

/-- The member scanner reads a dumped nonempty member list back through
the closing brace. -/
theorem rtPairs : ∀ (k : String) (v : Json) (ps : List (String × Json))
    (fuel : Nat) (rest : List Char), pairsWF ((k, v) :: ps) = true →
    (dumpsPairs ((k, v) :: ps)).length + 1 < fuel →
    scanPairs fuel (dumpsPairs ((k, v) :: ps) ++ '\x7d' :: rest)
      = some ((k, v) :: ps, rest)
  | k, v, [], fuel, rest, hwf, hf => by
    cases fuel with
    | zero => exact absurd hf (Nat.not_lt_zero _)
    | succ f =>
      have hwfv : jsonWF v = true := (pairsWF_cons hwf).1
      have hone : dumpsPairs [(k, v)]
          = '"' :: (escStr k.data ++ '"' :: ':' :: ' ' :: dumpsVal v) := by
        simp [dumpsPairs]
      have hlen : (dumpsPairs [(k, v)]).length
          = (escStr k.data).length + (dumpsVal v).length + 4 := by
        rw [hone]
        simp only [List.length_cons, List.length_append]
        omega
      have harr : dumpsPairs [(k, v)] ++ '\x7d' :: rest
          = '"' :: (escStr k.data ++ '"' ::
              (':' :: ' ' :: (dumpsVal v ++ '\x7d' :: rest))) := by
        rw [hone]
        simp
      rw [scanPairs_step, harr, skipPyWs_cons _ (by decide)]
      simp only [if_true]
      rw [readStr_escStr k.data
        (':' :: ' ' :: (dumpsVal v ++ '\x7d' :: rest))]
      simp only []
      rw [skipPyWs_cons _ (by decide)]
      simp only [if_true]
      rw [scanValue_space]
      rw [rtValue v f ('\x7d' :: rest) hwfv
        (by simp only [hlen] at hf; omega) (by rfl)]
      simp only []
      rw [skipPyWs_cons _ (by decide)]
      rfl
  | k, v, (k2, v2) :: ps2, fuel, rest, hwf, hf => by
    cases fuel with
    | zero => exact absurd hf (Nat.not_lt_zero _)
    | succ f =>
      obtain ⟨hwfv, hwft⟩ := pairsWF_cons hwf
      have hcons : dumpsPairs ((k, v) :: (k2, v2) :: ps2)
          = ('"' :: (escStr k.data ++ '"' :: ':' :: ' ' :: dumpsVal v)) ++
              ',' :: ' ' :: dumpsPairs ((k2, v2) :: ps2) := by
        simp [dumpsPairs]
      have hlen : (dumpsPairs ((k, v) :: (k2, v2) :: ps2)).length
          = (escStr k.data).length + (dumpsVal v).length + 6
            + (dumpsPairs ((k2, v2) :: ps2)).length := by
        rw [hcons]
        simp only [List.length_append, List.length_cons]
        omega
      have harr : dumpsPairs ((k, v) :: (k2, v2) :: ps2) ++ '\x7d' :: rest
          = '"' :: (escStr k.data ++ '"' ::
              (':' :: ' ' :: (dumpsVal v ++
                (',' :: ' ' ::
                  (dumpsPairs ((k2, v2) :: ps2) ++ '\x7d' :: rest))))) := by
        rw [hcons]
        simp
      rw [scanPairs_step, harr, skipPyWs_cons _ (by decide)]
      simp only [if_true]
      rw [readStr_escStr k.data
        (':' :: ' ' :: (dumpsVal v ++
          (',' :: ' ' :: (dumpsPairs ((k2, v2) :: ps2) ++ '\x7d' :: rest))))]
      simp only []
      rw [skipPyWs_cons _ (by decide)]
      simp only [if_true]
      rw [scanValue_space]
      rw [rtValue v f
        (',' :: ' ' :: (dumpsPairs ((k2, v2) :: ps2) ++ '\x7d' :: rest))
        hwfv (by simp only [hlen] at hf; omega) (by rfl)]
      simp only []
      rw [skipPyWs_cons _ (by decide)]
      simp only [if_true]
      rw [scanPairs_space]
      rw [rtPairs k2 v2 ps2 f rest hwft
        (by simp only [hlen] at hf; omega)]
termination_by k v ps fuel rest h1 h2 => 1 + sizeOf v + sizeOf ps
decreasing_by
  all_goals simp_wf
  all_goals omega

end

/-- json.loads reads back json.dumps on every well formed value. -/
theorem loads_dumps (v : Json) (h : jsonWF v = true) :
    loadsChars (dumpsVal v) = some v := by
  have hr := rtValue v (2 * (dumpsVal v).length + 4) [] h (by omega) (by rfl)
  rw [List.append_nil] at hr
  unfold loadsChars
  rw [hr]
  rfl

/-- A found first index lies inside the string. -/
theorem firstIdx_lt (cs : List Char) (c : Char) :
    ∀ i, firstIdx cs c = some i → i < cs.length := by
  induction cs with
  | nil =>
    intro i h
    simp [firstIdx] at h
  | cons x xs ih =>
    intro i h
    simp only [firstIdx] at h
    by_cases hx : x = c
    · rw [if_pos hx] at h
      cases h
      simp
    · rw [if_neg hx] at h
      cases hfx : firstIdx xs c with
      | none =>
        rw [hfx] at h
        simp at h
      | some i0 =>
        rw [hfx] at h
        simp only [Option.map_some', Option.some.injEq] at h
        have := ih i0 hfx
        simp only [List.length_cons]
        omega

/-- A found last index lies inside the string and points at the sought
character. -/
theorem lastIdx_drop (cs : List Char) (c : Char) :
    ∀ j, lastIdx cs c = some j →
      j < cs.length ∧ cs.drop j = c :: cs.drop (j + 1) := by
  induction cs with
  | nil =>
    intro j h
    simp [lastIdx] at h
  | cons x xs ih =>
    intro j h
    simp only [lastIdx] at h
    cases hlx : lastIdx xs c with
    | some i =>
      rw [hlx] at h
      simp only [Option.some.injEq] at h
      obtain ⟨hi, hdrop⟩ := ih i hlx
      constructor
      · simp only [List.length_cons]
        omega
      · rw [← h]
        show xs.drop i = c :: xs.drop (i + 1)
        exact hdrop
    | none =>
      rw [hlx] at h
      by_cases hx : x = c
      · rw [if_pos hx] at h
        simp only [Option.some.injEq] at h
        rw [← h]
        constructor
        · simp
        · show x :: xs = c :: xs.drop 0
          rw [hx, List.drop_zero]
      · rw [if_neg hx] at h
        exact absurd h (by simp)

/-- An absent character has no first index. -/
theorem firstIdx_eq_none {cs : List Char} {c : Char} (h : c ∉ cs) :
    firstIdx cs c = none := by
  induction cs with
  | nil => rfl
  | cons x xs ih =>
    simp only [List.mem_cons, not_or] at h
    simp only [firstIdx]
    rw [if_neg (fun hx => h.1 hx.symm), ih h.2]
    rfl

/-- An absent character has no last index. -/
theorem lastIdx_eq_none {cs : List Char} {c : Char} (h : c ∉ cs) :
    lastIdx cs c = none := by
  induction cs with
  | nil => rfl
  | cons x xs ih =>
    simp only [List.mem_cons, not_or] at h
    simp only [lastIdx, ih h.2]
    rw [if_neg (fun hx => h.1 hx.symm)]

/-- One step of the first index scan on a nonempty input. -/
theorem firstIdx_cons (x : Char) (xs : List Char) (c : Char) :
    firstIdx (x :: xs) c = if x = c then some 0
      else (firstIdx xs c).map (· + 1) := by
  rw [firstIdx.eq_def]

/-- One step of the last index scan on a nonempty input. -/
theorem lastIdx_cons (x : Char) (xs : List Char) (c : Char) :
    lastIdx (x :: xs) c = match lastIdx xs c with
      | some i => some (i + 1)
      | none => if x = c then some 0 else none := by
  rw [lastIdx.eq_def]

/-- The first index skips a prefix free of the sought character. -/
theorem firstIdx_append (pre rest : List Char) (c : Char) (h : c ∉ pre) :
    firstIdx (pre ++ rest) c = (firstIdx rest c).map (· + pre.length) := by
  induction pre with
  | nil =>
    simp only [List.nil_append, List.length_nil]
    cases hfr : firstIdx rest c <;> simp
  | cons x xs ih =>
    simp only [List.mem_cons, not_or] at h
    rw [List.cons_append, firstIdx_cons, if_neg (fun hx => h.1 hx.symm),
      ih h.2]
    cases hfr : firstIdx rest c with
    | none => simp
    | some i =>
      simp only [Option.map_some', Option.some.injEq, List.length_cons]
      omega

/-- The last index over an append: a hit in the right part wins with a
shifted index, otherwise the left part decides. -/
theorem lastIdx_append (a b : List Char) (c : Char) :
    lastIdx (a ++ b) c = match lastIdx b c with
      | some j => some (a.length + j)
      | none => lastIdx a c := by
  induction a with
  | nil =>
    cases hlb : lastIdx b c with
    | none => simp [hlb, lastIdx]
    | some j => simp [hlb]
  | cons x xs ih =>
    rw [List.cons_append, lastIdx_cons, ih]
    cases hlb : lastIdx b c with
    | some j =>
      simp only [Option.some.injEq, List.length_cons]
      omega
    | none =>
      simp only []
      rw [lastIdx_cons]

/-- A nonnegative Python slice bound inside the string is itself. -/
theorem pyBound_nonneg (n k : Nat) (hk : k ≤ n) :
    pyBound n (k : Int) = k := by
  simp only [pyBound]
  have h1 : ¬ ((k : Int) < 0) := by omega
  rw [if_neg h1, if_neg h1]
  have h2 : ((k : Int)).toNat = k := by omega
  rw [h2]
  exact min_eq_left hk

/-- The Python bound of minus one is the last position. -/
theorem pyBound_neg_one (n : Nat) : pyBound n (-1) = n - 1 := by
  simp only [pyBound]
  rw [if_pos (by omega : (-1 : Int) < 0)]
  by_cases hn : n = 0
  · subst hn
    decide
  · rw [if_neg (by omega : ¬ ((-1 : Int) + (n : Int) < 0))]
    have ht : ((-1 : Int) + (n : Int)).toNat = n - 1 := by omega
    rw [ht]
    exact min_eq_left (by omega)

/-- The slice the code takes equals the substring the specification
speaks about: from the first open brace through the last close brace,
with the degenerate cases all collapsing to an unparseable input. -/
theorem extract_eq_spec (cs : List Char) :
    extractJson cs = loadsChars (specSub cs) := by
  unfold extractJson specSub pyFind pyRfind
  cases hfi : firstIdx cs '\x7b' with
  | none =>
    cases hla : lastIdx cs '\x7d' with
    | none =>
      simp only []
      have hslice : pySlice cs (-1) (-1 + 1) = [] := by
        simp only [pySlice]
        rw [show pyBound cs.length (-1 + 1) = 0 from by simp [pyBound]]
        simp
      rw [hslice]
    | some j =>
      simp only []
      obtain ⟨hjlt, hdropj⟩ := lastIdx_drop cs '\x7d' j hla
      have hb : pyBound cs.length ((j : Int) + 1) = j + 1 := by
        rw [show ((j : Int) + 1) = ((j + 1 : Nat) : Int) from by push_cast; ring]
        exact pyBound_nonneg _ _ (by omega)
      have ha : pyBound cs.length (-1) = cs.length - 1 := pyBound_neg_one _
      simp only [pySlice, ha, hb]
      by_cases hcase : j + 1 < cs.length
      · have hnil : (cs.take (j + 1)).drop (cs.length - 1) = [] := by
          apply List.drop_eq_nil_of_le
          rw [List.length_take]
          omega
        rw [hnil]
      · have hj1 : j + 1 = cs.length := by omega
        have htake : cs.take (j + 1) = cs := by
          rw [hj1]
          exact List.take_length cs
        rw [htake]
        have hdrop : cs.drop (cs.length - 1) = ['\x7d'] := by
          have hj : j = cs.length - 1 := by omega
          rw [← hj, hdropj, hj1, List.drop_length]
        rw [hdrop]
        rfl
  | some i =>
    have hilt := firstIdx_lt cs '\x7b' i hfi
    cases hla : lastIdx cs '\x7d' with
    | none =>
      simp only []
      have hslice : pySlice cs (i : Int) (-1 + 1) = [] := by
        simp only [pySlice]
        rw [show pyBound cs.length (-1 + 1) = 0 from by simp [pyBound]]
        simp
      rw [hslice]
    | some j =>
      simp only []
      obtain ⟨hjlt, _⟩ := lastIdx_drop cs '\x7d' j hla
      have ha : pyBound cs.length (i : Int) = i :=
        pyBound_nonneg _ _ (by omega)
      have hb : pyBound cs.length ((j : Int) + 1) = j + 1 := by
        rw [show ((j : Int) + 1) = ((j + 1 : Nat) : Int) from by push_cast; ring]
        exact pyBound_nonneg _ _ (by omega)
      simp only [pySlice, ha, hb]

/-- Without an open brace the spec substring is empty. -/
theorem specSub_no_brace {cs : List Char}
    (h : firstIdx cs '\x7b' = none) : specSub cs = [] := by
  unfold specSub
  rw [h]

/-- The spec substring around a dumped object flanked by brace free
text is exactly the dumped object. -/
theorem specSub_embed (kvs : List (String × Json)) (pre suf : List Char)
    (hpre1 : '\x7b' ∉ pre) (hsuf2 : '\x7d' ∉ suf) :
    specSub (pre ++ dumpsVal (Json.obj kvs) ++ suf)
      = dumpsVal (Json.obj kvs) := by
  have hfirst : firstIdx (pre ++ (dumpsVal (Json.obj kvs) ++ suf)) '\x7b'
      = some pre.length := by
    rw [firstIdx_append pre _ '\x7b' hpre1]
    have h0 : firstIdx (dumpsVal (Json.obj kvs) ++ suf) '\x7b' = some 0 := by
      have hcons : dumpsVal (Json.obj kvs) ++ suf
          = '\x7b' :: ((dumpsPairs kvs ++ ['\x7d']) ++ suf) := rfl
      rw [hcons, firstIdx_cons, if_pos rfl]
    rw [h0]
    simp
  have hlast : lastIdx (pre ++ (dumpsVal (Json.obj kvs) ++ suf)) '\x7d'
      = some (pre.length + (1 + (dumpsPairs kvs).length)) := by
    rw [lastIdx_append]
    have h2 : lastIdx (dumpsVal (Json.obj kvs) ++ suf) '\x7d'
        = some (1 + (dumpsPairs kvs).length) := by
      rw [lastIdx_append, lastIdx_eq_none hsuf2]
      simp only []
      have hd2 : dumpsVal (Json.obj kvs)
          = ('\x7b' :: dumpsPairs kvs) ++ ['\x7d'] := rfl
      rw [hd2, lastIdx_append]
      rw [show lastIdx ['\x7d'] '\x7d' = some 0 from rfl]
      simp
      omega
    rw [h2]
  unfold specSub
  rw [List.append_assoc, hfirst, hlast]
  simp only []
  have hdlen : (dumpsVal (Json.obj kvs)).length
      = (dumpsPairs kvs).length + 2 := by
    show ('\x7b' :: (dumpsPairs kvs ++ ['\x7d'])).length = _
    simp
  rw [show pre ++ (dumpsVal (Json.obj kvs) ++ suf)
        = (pre ++ dumpsVal (Json.obj kvs)) ++ suf from
      (List.append_assoc pre _ suf).symm]
  have htake : ((pre ++ dumpsVal (Json.obj kvs)) ++ suf).take
      (pre.length + (1 + (dumpsPairs kvs).length) + 1)
      = pre ++ dumpsVal (Json.obj kvs) := by
    have hlen2 : pre.length + (1 + (dumpsPairs kvs).length) + 1
        = (pre ++ dumpsVal (Json.obj kvs)).length := by
      rw [List.length_append, hdlen]
      omega
    rw [hlen2]
    exact List.take_left _ _
  rw [htake]
  exact List.drop_left pre _

/-- C1: the extraction step of call_claude_api round trips json.dumps:
for every well formed object value and any prefix and suffix containing
neither brace character, extracting from prefix, dumped object, suffix
recovers exactly that object.  Model restrictions: numbers are
integers, strings carry no lone surrogate halves, and object keys are
pairwise distinct, as the keys of the Python dict being dumped always
are. -/
theorem c1_roundtrip (kvs : List (String × Json)) (pre suf : List Char)
    (hwf : jsonWF (Json.obj kvs) = true)
    (hpre1 : '\x7b' ∉ pre) (hpre2 : '\x7d' ∉ pre)
    (hsuf1 : '\x7b' ∉ suf) (hsuf2 : '\x7d' ∉ suf) :
    extractJson (pre ++ dumpsVal (Json.obj kvs) ++ suf)
      = some (Json.obj kvs) := by
  rw [extract_eq_spec, specSub_embed kvs pre suf hpre1 hsuf2]
  exact loads_dumps _ hwf

/-- C1 witness: the concrete scenario of the specification, a dumped
feeds object between brace free prose. -/
theorem c1_witness :
    jsonWF (Json.obj [("feeds", Json.arr [])]) = true ∧
    '\x7b' ∉ "here is your answer: ".data ∧
    '\x7d' ∉ "here is your answer: ".data ∧
    '\x7b' ∉ " thanks".data ∧
    '\x7d' ∉ " thanks".data ∧
    extractJson ("here is your answer: ".data
        ++ dumpsVal (Json.obj [("feeds", Json.arr [])])
        ++ " thanks".data)
      = some (Json.obj [("feeds", Json.arr [])]) :=
  ⟨by decide, by decide, by decide, by decide, by decide,
    c1_roundtrip [("feeds", Json.arr [])] "here is your answer: ".data
      " thanks".data (by decide) (by decide) (by decide) (by decide)
      (by decide)⟩

/-- C2: the extraction step of call_claude_api fails, raising the
malformed response error, on every reply without an open brace, and on
every reply whose substring from the first open brace through the last
close brace does not parse as JSON. -/
theorem c2_extraction_failure (cs : List Char)
    (h : '\x7b' ∉ cs ∨ loadsChars (specSub cs) = none) :
    extractJson cs = none := by
  rw [extract_eq_spec]
  rcases h with h | h
  · rw [specSub_no_brace (firstIdx_eq_none h)]
    rfl
  · rw [h]

/-- C2 witness: a reply with no brace at all is rejected. -/
theorem c2_witness :
    ('\x7b' ∉ ['n', 'o'] ∨ loadsChars (specSub ['n', 'o']) = none) ∧
      extractJson ['n', 'o'] = none :=
  ⟨Or.inl (by decide),
    c2_extraction_failure ['n', 'o'] (Or.inl (by decide))⟩

/-- C3 counterexample: the reply consisting of an empty object parses,
lacks a feeds key, and is nevertheless returned successfully, so
call_claude_api performs no top level shape validation. -/
theorem c3_counterexample :
    extractJson ['\x7b', '\x7d'] = some (Json.obj []) ∧
      hasKey (Json.obj []) "feeds" = false :=
  ⟨rfl, rfl⟩

/-- C3 (amended): the extraction step of call_claude_api returns
whatever value the substring between the braces parses to, with no
check for a feeds key or any other shape. -/
theorem c3_amended (cs : List Char) (v : Json)
    (h : loadsChars (specSub cs) = some v) :
    extractJson cs = some v := by
  rw [extract_eq_spec, h]

/-- C3 witness: the empty object reply flows through the amended
statement. -/
theorem c3_amended_witness :
    loadsChars (specSub ['\x7b', '\x7d']) = some (Json.obj []) ∧
      extractJson ['\x7b', '\x7d'] = some (Json.obj []) :=
  ⟨rfl, c3_amended ['\x7b', '\x7d'] (Json.obj []) rfl⟩
